import Mathlib

set_option maxHeartbeats 1000000

/-!
Shallow embedding of the orlando-video-plugin aggregation engine.

The definitions below are translated from the repository sources:

* `src/video_plugin/ui/launcher.py` — `_convert_many`, `_dedup_name`,
  `_ensure_folder_nodes` (the aggregation engine);
* `src/video_plugin/services/video_handler.py` — `can_handle`,
  `convert_to_dita`;
* `src/video_plugin/services/dita_builder.py` — `create_dita_context`,
  `_generate_topic_id`, `_add_video_element`, `_create_ditamap`.

Modelling conventions:

* Python `dict`s (insertion ordered, unique keys) are association lists
  `List (String × α)` extended only at the end, exactly like the code.
* Python strings are Lean `String`s; character predicates (`str.isalnum`,
  `str.isalpha`, `str.lower`) are modelled on their ASCII fragment, which
  is the fragment exercised by the file names the claims speak about.
* Filesystem facts (existence, readability by OpenCV, file bytes) are
  fields of the abstract `VideoFile` record; the converter is a pure
  function of that record.
* Machine loops (`while new in used`, `while "--" in topic_id`) become
  fuel/well-founded recursions, with theorems showing the fuel chosen is
  always sufficient, so the model computes exactly what the unbounded
  Python loop computes.
-/

/-! ### ASCII models of the Python character/string primitives -/

/-- ASCII model of `str.isupper` for a single character. -/
def pyIsUpper (c : Char) : Bool := 65 ≤ c.toNat && c.toNat ≤ 90

/-- ASCII model of a lowercase-letter test. -/
def pyIsLower (c : Char) : Bool := 97 ≤ c.toNat && c.toNat ≤ 122

/-- ASCII model of `str.isdigit` for a single character. -/
def pyIsDigit (c : Char) : Bool := 48 ≤ c.toNat && c.toNat ≤ 57

/-- ASCII model of `str.isalpha` for a single character. -/
def pyIsAlpha (c : Char) : Bool := pyIsUpper c || pyIsLower c

/-- ASCII model of `str.isalnum` for a single character. -/
def pyIsAlnum (c : Char) : Bool := pyIsAlpha c || pyIsDigit c

/-- ASCII model of `str.lower` for a single character. -/
def pyToLower (c : Char) : Char :=
  if pyIsUpper c then Char.ofNat (c.toNat + 32) else c

/-- ASCII model of `str.lower` on a whole string. -/
def pyLowerStr (s : String) : String := List.asString (s.data.map pyToLower)

/-- Index of the last occurrence of `c` in a character list
(Python `str.rfind`, with `none` for `-1`). -/
def lastIdx (c : Char) : List Char → Option Nat
  | [] => none
  | a :: rest =>
    match lastIdx c rest with
    | some i => some (i + 1)
    | none => if a = c then some 0 else none

/-- Model of `pathlib.PurePath.suffix` applied to a final path component:
the substring from the last dot, unless the dot is the first or the last
character of the name. -/
def pySuffix (name : String) : String :=
  match lastIdx '.' name.data with
  | some i =>
    if 0 < i ∧ i < name.data.length - 1 then List.asString (name.data.drop i) else ""
  | none => ""

/-- Model of `pathlib.PurePath.stem` applied to a final path component. -/
def pyStem (name : String) : String :=
  match lastIdx '.' name.data with
  | some i =>
    if 0 < i ∧ i < name.data.length - 1 then List.asString (name.data.take i) else name
  | none => name

/-- Model of `os.path.splitext` (posix flavour: separator `/`): the
extension starts at the last dot of the final path component, unless every
character of that component before the dot is itself a dot. -/
def splitext (p : String) : String × String :=
  let l := p.data
  let fIdx : Nat := match lastIdx '/' l with | some s => s + 1 | none => 0
  match lastIdx '.' l with
  | some d =>
    if fIdx ≤ d ∧ ((l.drop fIdx).take (d - fIdx)).any (fun c => c ≠ '.') then
      (List.asString (l.take d), List.asString (l.drop d))
    else (p, "")
  | none => (p, "")

/-- Model of `os.path.basename` (posix flavour). -/
def basename (p : String) : String :=
  match lastIdx '/' p.data with
  | some i => List.asString (p.data.drop (i + 1))
  | none => p

/-! ### The collision-renaming function `_dedup_name` (launcher.py 255-264) -/

/-- The candidate name `f"{base}-{i}{ext}"` tried by `_dedup_name`. -/
def dedupCandidate (base ext : String) (i : Nat) : String :=
  base ++ "-" ++ Nat.repr i ++ ext

/-- The `while new in used` search loop of `_dedup_name`, with explicit
fuel.  `dedupLoop_first_free` below shows that the fuel passed by
`dedup_name` always suffices, so this computes exactly the value of the
unbounded Python loop. -/
def dedupLoop (base ext : String) (used : List String) : Nat → Nat → String
  | 0, i => dedupCandidate base ext i
  | fuel + 1, i =>
    let new := dedupCandidate base ext i
    if new ∈ used then dedupLoop base ext used fuel (i + 1) else new

/-- Model of `_dedup_name` from `launcher.py`: return `name` unchanged if
it is not a key of `used`, otherwise split it with `os.path.splitext` and
try `base-2.ext`, `base-3.ext`, … until a candidate is free. -/
def dedup_name (name : String) (used : List String) : String :=
  if name ∈ used then
    dedupLoop (splitext name).1 (splitext name).2 used (used.length + 1) 2
  else name

/-! ### Injectivity of `Nat.repr`, used to bound the dedup search -/

/-- Decimal digit list of a natural number, most significant digit first;
reference implementation for `Nat.toDigits 10`. -/
def decDigits (n : Nat) : List Char :=
  if _h : n < 10 then [Nat.digitChar n]
  else decDigits (n / 10) ++ [Nat.digitChar (n % 10)]
  decreasing_by exact Nat.div_lt_self (by omega) (by omega)

theorem decDigits_lt {n : Nat} (h : n < 10) : decDigits n = [Nat.digitChar n] := by
  rw [decDigits]
  simp [h]

theorem decDigits_ge {n : Nat} (h : 10 ≤ n) :
    decDigits n = decDigits (n / 10) ++ [Nat.digitChar (n % 10)] := by
  rw [decDigits]
  simp [show ¬ n < 10 by omega]

theorem decDigits_ne_nil (n : Nat) : decDigits n ≠ [] := by
  by_cases h : n < 10
  · rw [decDigits_lt h]; simp
  · rw [decDigits_ge (by omega)]; simp

theorem toDigitsCore_eq_decDigits :
    ∀ fuel n acc, n < fuel →
      Nat.toDigitsCore 10 fuel n acc = decDigits n ++ acc := by
  intro fuel
  induction fuel with
  | zero => intro n acc h; omega
  | succ f ih =>
    intro n acc h
    by_cases h10 : n / 10 = 0
    · have hn : n < 10 := by omega
      rw [Nat.toDigitsCore]
      simp only [h10, if_pos]
      rw [decDigits_lt hn, Nat.mod_eq_of_lt hn]
      simp
    · have hge : 10 ≤ n := by
        by_contra hc
        exact h10 (Nat.div_eq_of_lt (by omega))
      have hlt : n / 10 < f := by
        have := Nat.div_lt_self (show 0 < n by omega) (show 1 < 10 by omega)
        omega
      rw [Nat.toDigitsCore]
      simp only [h10, if_neg, ite_false]
      rw [ih (n / 10) (Nat.digitChar (n % 10) :: acc) hlt, decDigits_ge hge]
      simp

theorem digitChar_inj_lt :
    ∀ a < 10, ∀ b < 10, Nat.digitChar a = Nat.digitChar b → a = b := by decide

theorem decDigits_inj (m : Nat) : ∀ n, decDigits m = decDigits n → m = n := by
  induction m using Nat.strong_induction_on with
  | _ m ih =>
    intro n h
    by_cases hm : m < 10 <;> by_cases hn : n < 10
    · rw [decDigits_lt hm, decDigits_lt hn] at h
      simp at h
      exact digitChar_inj_lt m hm n hn h
    · exfalso
      rw [decDigits_lt hm, decDigits_ge (show 10 ≤ n by omega)] at h
      have hlen := congrArg List.length h
      have hne := decDigits_ne_nil (n / 10)
      have hpos : 1 ≤ (decDigits (n / 10)).length := List.length_pos.mpr hne
      simp only [List.length_append, List.length_cons, List.length_nil] at hlen
      omega
    · exfalso
      rw [decDigits_ge (show 10 ≤ m by omega), decDigits_lt hn] at h
      have hlen := congrArg List.length h
      have hne := decDigits_ne_nil (m / 10)
      have hpos : 1 ≤ (decDigits (m / 10)).length := List.length_pos.mpr hne
      simp only [List.length_append, List.length_cons, List.length_nil] at hlen
      omega
    · rw [decDigits_ge (show 10 ≤ m by omega), decDigits_ge (show 10 ≤ n by omega)] at h
      obtain ⟨h1, h2⟩ := List.append_inj' h (by simp)
      have hdiv : m / 10 = n / 10 :=
        ih (m / 10) (Nat.div_lt_self (by omega) (by omega)) (n / 10) h1
      have hmod : m % 10 = n % 10 := by
        have := digitChar_inj_lt (m % 10) (Nat.mod_lt _ (by omega))
          (n % 10) (Nat.mod_lt _ (by omega))
        simp at h2
        exact this h2
      have hm' := Nat.div_add_mod m 10
      have hn' := Nat.div_add_mod n 10
      omega

theorem natRepr_inj {m n : Nat} (h : Nat.repr m = Nat.repr n) : m = n := by
  have hdata := congrArg String.data h
  unfold Nat.repr at hdata
  simp only [Nat.toDigits] at hdata
  rw [toDigitsCore_eq_decDigits (m + 1) m [] (by omega),
      toDigitsCore_eq_decDigits (n + 1) n [] (by omega)] at hdata
  simp [List.asString] at hdata
  exact decDigits_inj m n hdata

theorem dedupCandidate_inj (base ext : String) {i j : Nat}
    (h : dedupCandidate base ext i = dedupCandidate base ext j) : i = j := by
  unfold dedupCandidate at h
  have hd := congrArg String.data h
  simp only [String.data_append, List.append_assoc] at hd
  have hd1 := List.append_cancel_left hd
  have hd2 := List.append_cancel_left hd1
  obtain ⟨hrepr, -⟩ := List.append_inj' hd2 rfl
  exact natRepr_inj (String.ext hrepr)

theorem dedup_free_index_exists (base ext : String) (used : List String) :
    ∃ k, k ≤ used.length ∧ dedupCandidate base ext (2 + k) ∉ used := by
  by_contra hall
  push_neg at hall
  have hmem : ∀ k : Fin (used.length + 1),
      dedupCandidate base ext (2 + (k : Nat)) ∈ used.toFinset := fun k =>
    List.mem_toFinset.mpr (hall (k : Nat) (Nat.lt_succ_iff.mp k.isLt))
  have hinj : Function.Injective
      (fun k : Fin (used.length + 1) => dedupCandidate base ext (2 + (k : Nat))) := by
    intro a b hab
    have hval := dedupCandidate_inj base ext hab
    exact Fin.ext (by omega)
  have himg : (Finset.univ.image
      (fun k : Fin (used.length + 1) => dedupCandidate base ext (2 + (k : Nat))))
      ⊆ used.toFinset := by
    intro x hx
    obtain ⟨k, -, rfl⟩ := Finset.mem_image.mp hx
    exact hmem k
  have hcard1 := Finset.card_image_of_injective
    (Finset.univ : Finset (Fin (used.length + 1))) hinj
  have hcard2 := Finset.card_le_card himg
  have hcard3 := List.toFinset_card_le used
  simp only [Finset.card_univ, Fintype.card_fin] at hcard1
  omega

theorem dedupLoop_first_free (base ext : String) (used : List String) :
    ∀ fuel i, (∃ k, k < fuel ∧ dedupCandidate base ext (i + k) ∉ used) →
      ∃ k, dedupCandidate base ext (i + k) ∉ used ∧
        (∀ j, j < k → dedupCandidate base ext (i + j) ∈ used) ∧
        dedupLoop base ext used fuel i = dedupCandidate base ext (i + k) := by
  intro fuel
  induction fuel with
  | zero =>
    rintro i ⟨k, hk, -⟩
    omega
  | succ f ih =>
    rintro i ⟨k, hk, hfree⟩
    by_cases hin : dedupCandidate base ext i ∈ used
    · have hk0 : k ≠ 0 := by
        rintro rfl
        rw [Nat.add_zero] at hfree
        exact hfree hin
      obtain ⟨k', hfree', hmin', heq'⟩ := ih (i + 1)
        ⟨k - 1, by omega, by
          have harith : i + 1 + (k - 1) = i + k := by omega
          rw [harith]
          exact hfree⟩
      refine ⟨k' + 1, ?_, ?_, ?_⟩
      · have harith : i + (k' + 1) = i + 1 + k' := by omega
        rw [harith]
        exact hfree'
      · intro j hj
        cases j with
        | zero => simpa using hin
        | succ j' =>
          have harith : i + (j' + 1) = i + 1 + j' := by omega
          rw [harith]
          exact hmin' j' (by omega)
      · rw [dedupLoop]
        simp only [hin, if_pos]
        have harith : i + (k' + 1) = i + 1 + k' := by omega
        rw [harith]
        exact heq'
    · refine ⟨0, by simpa using hin, ?_, ?_⟩
      · intro j hj
        exact absurd hj (Nat.not_lt_zero j)
      · rw [Nat.add_zero, dedupLoop]
        simp [hin]

/-- Specification shape shared by claim C3 and its amendment: the result
of deduplication is the name itself when it is free, and otherwise the
first free candidate `base-k.ext` with `k = 2, 3, …`, where `base` and
`ext` come from the given splitting function. -/
def firstFreeSpec (split : String → String × String) (name : String)
    (used : List String) (result : String) : Prop :=
  (name ∉ used → result = name) ∧
  (name ∈ used → ∃ k, 2 ≤ k ∧
    dedupCandidate (split name).1 (split name).2 k ∉ used ∧
    (∀ j, 2 ≤ j → j < k → dedupCandidate (split name).1 (split name).2 j ∈ used) ∧
    result = dedupCandidate (split name).1 (split name).2 k)

/-- Naive split at the last dot, following the words of the spec for C3:
the extension is the substring from the last `.` onward, or empty if there
is no `.` at all. -/
def specSplitext (name : String) : String × String :=
  match lastIdx '.' name.data with
  | some i => (List.asString (name.data.take i), List.asString (name.data.drop i))
  | none => (name, "")

/-- C3 (amended): for every name and set of existing keys, `_dedup_name`
returns the name unchanged when it is not among the existing keys;
otherwise it splits the name with `os.path.splitext` semantics — the
extension starts at the last `.` of the final path component unless every
character of that component before the `.` is itself a dot (so a
hidden-file style name such as `.mp4` has base `.mp4` and empty
extension) — and returns the first candidate of `base-2.ext`,
`base-3.ext`, … (incrementing by one) that is absent from the existing
keys. -/
theorem dedup_name_first_free (name : String) (used : List String) :
    firstFreeSpec splitext name used (dedup_name name used) := by
  constructor
  · intro hnot
    unfold dedup_name
    simp [hnot]
  · intro hmem
    unfold dedup_name
    simp only [hmem, if_pos]
    obtain ⟨k, hk, hfree⟩ :=
      dedup_free_index_exists (splitext name).1 (splitext name).2 used
    obtain ⟨k0, hfree0, hmin0, heq0⟩ :=
      dedupLoop_first_free (splitext name).1 (splitext name).2 used
        (used.length + 1) 2 ⟨k, by omega, hfree⟩
    refine ⟨2 + k0, by omega, hfree0, ?_, heq0⟩
    intro j h2 hj
    have harith : j = 2 + (j - 2) := by omega
    rw [harith]
    exact hmin0 (j - 2) (by omega)

/-- witness for `dedup_name_first_free` at a concrete collision. -/
theorem dedup_name_first_free_witness :
    ∃ k, 2 ≤ k ∧
      dedupCandidate "clip" ".mp4" k ∉ ["clip.mp4", "clip-2.mp4"] ∧
      (∀ j, 2 ≤ j → j < k →
        dedupCandidate "clip" ".mp4" j ∈ ["clip.mp4", "clip-2.mp4"]) ∧
      dedup_name "clip.mp4" ["clip.mp4", "clip-2.mp4"] =
        dedupCandidate "clip" ".mp4" k := by
  have h := (dedup_name_first_free "clip.mp4" ["clip.mp4", "clip-2.mp4"]).2 (by decide)
  have hsp : splitext "clip.mp4" = ("clip", ".mp4") := rfl
  rw [hsp] at h
  exact h

/-- C3 counterexample: on the hidden-file style name `.mp4` the claim's
naive last-dot split predicts base `""`, extension `".mp4"` and therefore
first candidate `-2.mp4`, but `_dedup_name` (which uses
`os.path.splitext`) returns `.mp4-2`. -/
theorem dedup_name_claim_false :
    ¬ firstFreeSpec specSplitext ".mp4" [".mp4"] (dedup_name ".mp4" [".mp4"]) := by
  intro hspec
  have hsp : specSplitext ".mp4" = ("", ".mp4") := rfl
  obtain ⟨k, hk2, hfree, hmin, heq⟩ := hspec.2 (by decide)
  rw [hsp] at heq
  have hval : dedup_name ".mp4" [".mp4"] = ".mp4-2" := rfl
  rw [hval] at heq
  have hhead : (dedupCandidate "" ".mp4" k).data.head? = some '-' := by
    unfold dedupCandidate
    rw [String.data_append, String.data_append]
    have hconc : (("" ++ "-" : String)).data = ['-'] := rfl
    rw [hconc]
    simp
  have hContr := congrArg (fun s : String => s.data.head?) heq
  simp only [hhead] at hContr
  have hdot : ((".mp4-2" : String)).data.head? = some '.' := rfl
  rw [hdot] at hContr
  simp at hContr

/-! ### Topic-id generation (dita_builder.py `_generate_topic_id`) -/

/-- One pass of Python `str.replace("--", "-")`: replace every
non-overlapping occurrence of two hyphens by a single hyphen, scanning
left to right. -/
def replacePairs : List Char → List Char
  | [] => []
  | [c] => [c]
  | a :: b :: rest =>
    if a = '-' ∧ b = '-' then '-' :: replacePairs rest
    else a :: replacePairs (b :: rest)

/-- Whether the list contains two adjacent hyphens (Python `"--" in s`). -/
def hasDD : List Char → Bool
  | a :: b :: rest => (a = '-' && b = '-') || hasDD (b :: rest)
  | _ => false

theorem replacePairs_length_le : ∀ l : List Char, (replacePairs l).length ≤ l.length := by
  intro l
  induction l using replacePairs.induct with
  | case1 => simp [replacePairs]
  | case2 c => simp [replacePairs]
  | case3 a b rest hab ih =>
    rw [replacePairs, if_pos hab]
    simp only [List.length_cons]
    omega
  | case4 a b rest hab ih =>
    rw [replacePairs, if_neg hab]
    simp only [List.length_cons] at ih ⊢
    omega

theorem replacePairs_length_lt :
    ∀ l : List Char, hasDD l = true → (replacePairs l).length < l.length := by
  intro l
  induction l using replacePairs.induct with
  | case1 => simp [hasDD]
  | case2 c => simp [hasDD]
  | case3 a b rest hab ih =>
    intro hdd
    rw [replacePairs, if_pos hab]
    have hle := replacePairs_length_le rest
    simp only [List.length_cons]
    omega
  | case4 a b rest hab ih =>
    intro hdd
    rw [replacePairs, if_neg hab]
    have hdd' : hasDD (b :: rest) = true := by
      rw [hasDD] at hdd
      rcases Bool.or_eq_true_iff.mp hdd with h1 | h2
      · exact absurd ⟨by simpa using Bool.and_eq_true_iff.mp h1 |>.1,
          by simpa using Bool.and_eq_true_iff.mp h1 |>.2⟩ hab
      · exact h2
    have := ih hdd'
    simp only [List.length_cons] at this ⊢
    omega

/-- The `while "--" in topic_id` loop of `_generate_topic_id`, with
explicit fuel.  Every pass strictly shrinks the list, so the fuel chosen
by `squeezeHyphens` always suffices: see `hasDD_squeezeHyphens`. -/
def squeezeLoop : Nat → List Char → List Char
  | 0, l => l
  | fuel + 1, l => if hasDD l = true then squeezeLoop fuel (replacePairs l) else l

/-- The `while "--" in topic_id` loop of `_generate_topic_id`. -/
def squeezeHyphens (l : List Char) : List Char := squeezeLoop l.length l

theorem hasDD_squeezeLoop :
    ∀ fuel l, l.length ≤ fuel → hasDD (squeezeLoop fuel l) = false := by
  intro fuel
  induction fuel with
  | zero =>
    intro l hl
    have : l = [] := List.length_eq_zero.mp (by omega)
    subst this
    rfl
  | succ f ih =>
    intro l hl
    rw [squeezeLoop]
    by_cases h : hasDD l = true
    · rw [if_pos h]
      exact ih _ (by have := replacePairs_length_lt l h; omega)
    · rw [if_neg h]
      exact Bool.not_eq_true _ |>.mp h

/-- The fuel passed by `squeezeHyphens` always suffices: the loop only
stops once no two adjacent hyphens remain, exactly like the Python
`while` loop. -/
theorem hasDD_squeezeHyphens (l : List Char) : hasDD (squeezeHyphens l) = false :=
  hasDD_squeezeLoop l.length l le_rfl

/-- The character filtering loop of `_generate_topic_id`: iterate over the
lowercased stem, keep alphanumeric characters, turn space, hyphen,
underscore and dot into a hyphen, and drop everything else. -/
def topicIdChars : List Char → List Char
  | [] => []
  | c :: rest =>
    let lc := pyToLower c
    if pyIsAlnum lc then lc :: topicIdChars rest
    else if lc = ' ' ∨ lc = '-' ∨ lc = '_' ∨ lc = '.' then '-' :: topicIdChars rest
    else topicIdChars rest

/-- Python `str.strip("-")`. -/
def stripDashes (l : List Char) : List Char :=
  ((l.dropWhile (fun c => c = '-')).reverse.dropWhile (fun c => c = '-')).reverse

/-- Model of `_generate_topic_id` from `dita_builder.py`: filter the
lowercased stem, squeeze duplicate hyphens, test the first character
(this is the `topic_id[0]` access: on an empty candidate the Python code
raises `IndexError`, modelled by `none`), prepend `video-` when the
candidate does not start with a letter, truncate to 50 characters, and
strip hyphens from both ends. -/
def generate_topic_id (filename : String) : Option String :=
  match squeezeHyphens (topicIdChars (pyStem filename).data) with
  | [] => none
  | c :: rest =>
    let t2 := if pyIsAlpha c = false then ("video-").data ++ (c :: rest) else c :: rest
    some (List.asString (stripDashes (t2.take 50)))

/-! ### The per-file converter (video_handler.py, dita_builder.py) -/

/-- Abstract model of one input file: its name (final path component),
its directory path relative to the selected root folder (empty in flat
mode), whether it exists on disk, whether OpenCV can open and read it
(`VideoProcessor.validate_format`), and its raw bytes. -/
structure VideoFile where
  name : String
  dir : List String
  onDisk : Bool
  readable : Bool
  bytes : String
deriving DecidableEq

/-- Display path of a file (its segments joined by the path separator). -/
def pathStr (f : VideoFile) : String :=
  String.intercalate "/" (f.dir ++ [f.name])

/-- Supported video extensions (video_handler.py `__init__`). -/
def supportedExtensions : List String :=
  [".mp4", ".avi", ".mov", ".wmv", ".webm", ".mkv"]

/-- Model of `VideoDocumentHandler.can_handle`: the file exists and its
lowercased suffix is one of the supported extensions. -/
def can_handle (f : VideoFile) : Bool :=
  if f.onDisk = false then false
  else decide (pyLowerStr (pySuffix f.name) ∈ supportedExtensions)

/-- One topic document, reduced to the fields the claims are about: its
id, its title, and the `data` attribute of its embedded `object` element
(`_add_video_element` sets it to `../media/<video_filename>`). -/
structure Topic where
  id : String
  title : String
  objData : String
deriving DecidableEq

/-- Per-file conversion result (the spec's `ConversionResult`): ordered
topic/image/video maps, the per-file auxiliary metadata map
(`plugin_data['orlando-video-plugin']['video_info_map']`), and the href
of the single reference node of the per-file map fragment. -/
structure ConversionResult where
  topics : List (String × Topic)
  images : List (String × String)
  videos : List (String × String)
  auxInfo : List (String × String)
  mapHref : Option String
deriving DecidableEq

/-- Error surfaced by a failed conversion, carrying the offending file's
path and the exception message built by `convert_to_dita`. -/
structure ConvError where
  filePath : String
  message : String
deriving DecidableEq

/-- Model of `VideoDitaBuilder.create_dita_context` composed with the
title rewrite performed in `convert_to_dita`: one topic keyed by
`<topic_id>.dita`, one video blob keyed by the original filename
(`preserve_original_filenames` defaults to true in
`_get_video_media_filename`), no images, no auxiliary metadata (the
in-repo builder never writes `video_info_map`), and a map fragment whose
single reference points at `topics/<topic_filename>`.  Returns `none`
when `_generate_topic_id` raises. -/
def create_dita_context (f : VideoFile) : Option ConversionResult :=
  match generate_topic_id f.name with
  | none => none
  | some topicId =>
    some
      { topics := [(topicId ++ ".dita",
          { id := topicId
            title := pyStem f.name
            objData := "../media/" ++ f.name })]
        images := []
        videos := [(f.name, f.bytes)]
        auxInfo := []
        mapHref := some ("topics/" ++ (topicId ++ ".dita")) }

/-- Model of `VideoDocumentHandler.convert_to_dita`: a file that is
missing, that OpenCV rejects (`validate_format` false, raising
`ValueError`), or whose topic-id generation raises, yields an error
naming the file's path; otherwise the built context is returned. -/
def convert_to_dita (f : VideoFile) : Except ConvError ConversionResult :=
  if f.onDisk = false then
    Except.error
      { filePath := pathStr f
        message := "File not found: " ++ pathStr f }
  else if f.readable = false then
    Except.error
      { filePath := pathStr f
        message := "Failed to convert video " ++ pathStr f ++
          ": Unsupported or corrupted video file: " ++ pathStr f }
  else
    match create_dita_context f with
    | some r => Except.ok r
    | none =>
      Except.error
        { filePath := pathStr f
          message := "Failed to convert video " ++ pathStr f ++
            ": string index out of range" }

/-- Modelled from the spec: the host application's service registry
(`service_registry.find_handler_for_file`, which is not part of this
repository) returns the registered video handler exactly when that
handler's `can_handle` accepts the file, and no handler otherwise. -/
def videoHandler (f : VideoFile) : Option (Except ConvError ConversionResult) :=
  if can_handle f then some (convert_to_dita f) else none

/-! ### The aggregation engine (launcher.py `_convert_many`) -/

/-- One node attached to the project map: either a reference node
(`topicref`, carrying its parent folder node, its `href` and its
`navtitle`) or a folder node (`topichead`, carrying its own id, its
parent, and its `navtitle`).  The map root has id 0; nodes appear in
creation order, and the children of a node `p` in document order are the
entries with parent `p`, in list order. -/
inductive ChildNode where
  | ref (parent : Nat) (href : String) (nav : String)
  | head (id : Nat) (parent : Nat) (nav : String)
deriving DecidableEq

/-- State of the project map under construction: the id of the next
folder node to create (the root is node 0), all attached nodes in
creation order, and the folder-node cache keyed by relative path. -/
structure MapState where
  nextId : Nat
  children : List ChildNode
  cache : List (String × Nat)
deriving DecidableEq

/-- Python `str.split('/')` on the character level (keeps empty pieces). -/
def splitSlash : List Char → List (List Char)
  | [] => [[]]
  | c :: rest =>
    match splitSlash rest with
    | [] => [[c]]
    | g :: gs => if c = '/' then [] :: g :: gs else (c :: g) :: gs

/-- Nonempty path segments of a relative key
(`[p for p in rel_key.split('/') if p]`). -/
def partsOf (relKey : String) : List String :=
  ((splitSlash relKey.data).map List.asString).filter (fun p => p ≠ "")

/-- The walking loop of `_ensure_folder_nodes`: accumulate path segments;
at each step, the cache key is the accumulated prefix joined by `/`; a
cached prefix is reused as the parent, an absent one causes one new
folder node to be created under the current parent and cached. -/
def ensureLoop : MapState → Nat → List String → List String → Nat × MapState
  | st, parent, _, [] => (parent, st)
  | st, parent, accum, part :: rest =>
    match List.lookup (String.intercalate "/" (accum ++ [part])) st.cache with
    | some node => ensureLoop st node (accum ++ [part]) rest
    | none =>
      ensureLoop
        { nextId := st.nextId + 1
          children := st.children ++ [ChildNode.head st.nextId parent part]
          cache := st.cache ++ [(String.intercalate "/" (accum ++ [part]), st.nextId)] }
        st.nextId (accum ++ [part]) rest

/-- Model of `_ensure_folder_nodes` (launcher.py 340-359). -/
def ensure_folder_nodes (st : MapState) (relKey : String) : Nat × MapState :=
  match List.lookup relKey st.cache with
  | some node => (node, st)
  | none => ensureLoop st 0 [] (partsOf relKey)

/-- The accumulated project (the spec's `Project`): merged topic, image
and video maps and the merged auxiliary-metadata index, all as
insertion-ordered association lists. -/
structure Project where
  topics : List (String × Topic)
  images : List (String × String)
  videos : List (String × String)
  auxIndex : List (String × String)
deriving DecidableEq

/-- Generic merge loop shared by the image, video and aux-metadata merges
in `_convert_many`: insert every entry under its deduplicated key. -/
def mergeEntries {α : Type} : List (String × α) → List (String × α) → List (String × α)
  | acc, [] => acc
  | acc, (k, v) :: rest =>
    mergeEntries (acc ++ [(dedup_name k (acc.map Prod.fst), v)]) rest

/-- The topic merge loop of `_convert_many`, which also records the
renames it performed (`rename_map`). -/
def mergeTopics : List (String × Topic) → List (String × String) →
    List (String × Topic) → List (String × Topic) × List (String × String)
  | acc, rmap, [] => (acc, rmap)
  | acc, rmap, (tname, el) :: rest =>
    mergeTopics (acc ++ [(dedup_name tname (acc.map Prod.fst), el)])
      (if dedup_name tname (acc.map Prod.fst) ≠ tname then
        rmap ++ [(tname, dedup_name tname (acc.map Prod.fst))] else rmap) rest

/-- Relative directory key of a file: `str(rel)` with `'.'` mapped to the
empty string and the separator normalised to `/`. -/
def relKeyOf (f : VideoFile) : String :=
  if f.dir = [] then "" else String.intercalate "/" f.dir

/-- Python truthiness of the optional href string (`if not href`). -/
def hrefFalsy : Option String → Bool
  | none => true
  | some s => if s = "" then true else false

/-- The topic/image/video/aux merging phase of one `_convert_many`
iteration (launcher.py 277-302): merge the four per-file maps into the
accumulated project and return the topic rename map recorded along the
way. -/
def mergeProject (proj : Project) (r : ConversionResult) :
    Project × List (String × String) :=
  ({ topics := (mergeTopics proj.topics [] r.topics).1
     images := mergeEntries proj.images r.images
     videos := mergeEntries proj.videos r.videos
     auxIndex := mergeEntries proj.auxIndex r.auxInfo },
   (mergeTopics proj.topics [] r.topics).2)

/-- The href determination of one `_convert_many` iteration (launcher.py
304-314): take the child map's reference href, and if it is falsy fall
back to `topics/<first topic filename>` when the child has topics. -/
def childHref (r : ConversionResult) : Option String :=
  if hrefFalsy r.mapHref then
    match r.topics with
    | [] => r.mapHref
    | (k, _) :: _ => some ("topics/" ++ k)
  else r.mapHref

/-- The reference attachment phase of one `_convert_many` iteration
(launcher.py 316-336): when the href is truthy, resolve the parent (the
map root in flat mode or for files directly under the root folder, the
folder node for the file's relative directory otherwise) and append one
reference node whose href basename has the recorded rename applied and
whose navtitle is the file's stem. -/
def attachRef (folderMode : Bool) (ms : MapState) (f : VideoFile)
    (r : ConversionResult) (rmap : List (String × String)) : MapState :=
  match childHref r with
  | none => ms
  | some h =>
    if h = "" then ms
    else
      let pm := if folderMode ∧ relKeyOf f ≠ "" then
          ensure_folder_nodes ms (relKeyOf f) else (0, ms)
      { pm.2 with children := pm.2.children ++
          [ChildNode.ref pm.1
            ("topics/" ++ ((List.lookup (basename h) rmap).getD (basename h)))
            (pyStem f.name)] }

/-- Per-file merge step of `_convert_many` (launcher.py 277-336): merge
the per-file maps, then attach the (rename-adjusted) reference node. -/
def mergeResult (folderMode : Bool) (st : Project × MapState)
    (f : VideoFile) (r : ConversionResult) : Project × MapState :=
  ((mergeProject st.1 r).1,
   attachRef folderMode st.2 f r (mergeProject st.1 r).2)

/-- Model of `_convert_many`: process the files in order, silently skip
files for which no handler is found, abort on the first conversion
error, and merge each successful result into the accumulated project and
map. -/
def convert_many (handler : VideoFile → Option (Except ConvError ConversionResult))
    (folderMode : Bool) :
    List VideoFile → Project × MapState → Except ConvError (Project × MapState)
  | [], st => Except.ok st
  | f :: rest, st =>
    match handler f with
    | none => convert_many handler folderMode rest st
    | some (Except.error e) => Except.error e
    | some (Except.ok r) =>
      convert_many handler folderMode rest (mergeResult folderMode st f r)

/-- Empty project and empty map at the start of one aggregation run. -/
def initState : Project × MapState :=
  ({ topics := [], images := [], videos := [], auxIndex := [] },
   { nextId := 1, children := [], cache := [] })

/-! ### Claim C1: media collision renaming and topic media references -/

/-- First demo input: `a/clip.mp4`, accepted and readable. -/
def fileA : VideoFile :=
  { name := "clip.mp4", dir := ["a"], onDisk := true, readable := true, bytes := "A" }

/-- Second demo input: `b/clip.mp4`, a distinct file producing the same
media filename. -/
def fileB : VideoFile :=
  { name := "clip.mp4", dir := ["b"], onDisk := true, readable := true, bytes := "B" }

/-- C1 (code bug evidence): aggregating two accepted files that both
produce the media filename `clip.mp4` does give the media map the two
entries `clip.mp4` and `clip-2.mp4`, but the merge never rewrites the
`object/@data` media reference inside the topics, so the topic belonging
to the renamed media still references `../media/clip.mp4` (the first
file's blob) rather than `../media/clip-2.mp4`; the renamed blob is kept
but never referenced. -/
theorem media_rename_leaves_topic_reference_stale :
    (convert_many videoHandler false [fileA, fileB] initState).map
        (fun st => st.1.videos.map Prod.fst) = Except.ok ["clip.mp4", "clip-2.mp4"] ∧
    (convert_many videoHandler false [fileA, fileB] initState).map
        (fun st => st.1.topics.map (fun t => t.2.objData)) =
      Except.ok ["../media/clip.mp4", "../media/clip.mp4"] ∧
    ("../media/clip.mp4" : String) ≠ "../media/clip-2.mp4" :=
  ⟨rfl, rfl, by decide⟩

/-! ### Claim C9: the converter's acceptance check -/

/-- C9: `can_handle` returns true exactly for a path that exists on disk
and whose lowercased suffix is one of `.mp4`, `.avi`, `.mov`, `.wmv`,
`.webm`, `.mkv`; in particular a nonexistent file gets no handler, so the
batch loop of `_convert_many` skips it silently instead of failing. -/
theorem can_handle_iff (f : VideoFile) :
    (can_handle f = true ↔
      f.onDisk = true ∧ pyLowerStr (pySuffix f.name) ∈ supportedExtensions) ∧
    (f.onDisk = false → ∀ fm rest st,
      convert_many videoHandler fm (f :: rest) st =
        convert_many videoHandler fm rest st) := by
  constructor
  · unfold can_handle
    cases hd : f.onDisk
    · simp
    · simp
  · intro hoff fm rest st
    have hnone : videoHandler f = none := by
      unfold videoHandler can_handle
      rw [hoff]
      simp
    rw [convert_many, hnone]

/-- witness for `can_handle_iff` on a nonexistent file. -/
theorem can_handle_iff_witness :
    convert_many videoHandler false
        [{ name := "ghost.mp4", dir := [], onDisk := false, readable := true,
           bytes := "" }] initState =
      convert_many videoHandler false [] initState :=
  (can_handle_iff _).2 rfl false [] initState

/-! ### Claim C4: abort on conversion failure -/

theorem convert_to_dita_error_path (f : VideoFile) (e : ConvError)
    (h : convert_to_dita f = Except.error e) : e.filePath = pathStr f := by
  unfold convert_to_dita at h
  split at h
  · cases h
    rfl
  · split at h
    · cases h
      rfl
    · split at h
      · cases h
      · cases h
        rfl

theorem handler_ok_ne_error {f : VideoFile} {r : ConversionResult}
    (h : videoHandler f = some (Except.ok r)) :
    ∀ e', videoHandler f ≠ some (Except.error e') := by
  intro e' hc
  rw [h] at hc
  exact Except.noConfusion (Option.some.inj hc)

/-- C4: if the batch contains a file the handler accepts but whose
conversion fails, and every file before it converts without raising,
then the run returns exactly that conversion error — which carries the
failing file's path and cause — and no project value at all (the result
is an `Except.error`, so not even a partial project covering the earlier
files reaches the caller). -/
theorem abort_on_conversion_failure (fm : Bool) (pre post : List VideoFile)
    (bad : VideoFile) (e : ConvError) (st : Project × MapState)
    (hpre : ∀ f ∈ pre, ∀ e', videoHandler f ≠ some (Except.error e'))
    (hbad : videoHandler bad = some (Except.error e)) :
    convert_many videoHandler fm (pre ++ bad :: post) st = Except.error e ∧
    e.filePath = pathStr bad := by
  constructor
  · induction pre generalizing st with
    | nil =>
      rw [List.nil_append, convert_many, hbad]
    | cons g rest ih =>
      rw [List.cons_append, convert_many]
      cases hg : videoHandler g with
      | none => exact ih st (fun f hf => hpre f (List.mem_cons_of_mem g hf))
      | some res =>
        cases res with
        | error e' => exact absurd hg (hpre g (List.mem_cons_self g rest) e')
        | ok r =>
          exact ih (mergeResult fm st g r)
            (fun f hf => hpre f (List.mem_cons_of_mem g hf))
  · unfold videoHandler at hbad
    by_cases hch : can_handle bad = true
    · rw [if_pos hch] at hbad
      exact convert_to_dita_error_path bad e (Option.some.inj hbad)
    · rw [if_neg hch] at hbad
      exact Option.noConfusion hbad

/-- Demo input that converts successfully. -/
def goodFile : VideoFile :=
  { name := "a.mp4", dir := [], onDisk := true, readable := true, bytes := "a" }

/-- Demo input accepted by `can_handle` but rejected by the converter. -/
def badFile : VideoFile :=
  { name := "bad.mp4", dir := [], onDisk := true, readable := false, bytes := "b" }

/-- Demo input after the failing one, never reached. -/
def lateFile : VideoFile :=
  { name := "c.mp4", dir := [], onDisk := true, readable := true, bytes := "c" }

/-- witness for `abort_on_conversion_failure` on the batch
`[a.mp4, bad.mp4, c.mp4]`. -/
theorem abort_on_conversion_failure_witness :
    convert_many videoHandler false [goodFile, badFile, lateFile] initState =
      Except.error
        { filePath := "bad.mp4"
          message := "Failed to convert video bad.mp4: Unsupported or corrupted video file: bad.mp4" } ∧
    ({ filePath := "bad.mp4"
       message := "Failed to convert video bad.mp4: Unsupported or corrupted video file: bad.mp4" } : ConvError).filePath
      = pathStr badFile :=
  abort_on_conversion_failure false [goodFile] [lateFile] badFile
    { filePath := "bad.mp4"
      message := "Failed to convert video bad.mp4: Unsupported or corrupted video file: bad.mp4" }
    initState
    (by
      intro f hf
      rw [List.mem_singleton] at hf
      subst hf
      exact handler_ok_ne_error rfl)
    rfl

/-! ### Claims C5 and C8: skip semantics, counts and flat-mode children -/

/-- Whether a map node is a reference node. -/
def isRefNode : ChildNode → Bool
  | ChildNode.ref _ _ _ => true
  | ChildNode.head _ _ _ => false

theorem topics_pre_ne_empty (s : String) : ("topics/" ++ s : String) ≠ "" := by
  intro h
  have hd := congrArg String.data h
  rw [String.data_append] at hd
  rcases List.append_eq_nil.mp hd with ⟨h1, -⟩
  exact absurd h1 (by decide)

theorem childHref_some_ne (r : ConversionResult) (hne : r.topics ≠ []) :
    ∃ h, childHref r = some h ∧ h ≠ "" := by
  unfold childHref
  cases htop : r.topics with
  | nil => exact absurd htop hne
  | cons p rest =>
    cases hm : r.mapHref with
    | none =>
      exact ⟨"topics/" ++ p.1, by simp [hrefFalsy], topics_pre_ne_empty p.1⟩
    | some s =>
      by_cases hs : s = ""
      · subst hs
        exact ⟨"topics/" ++ p.1, by simp [hrefFalsy], topics_pre_ne_empty p.1⟩
      · exact ⟨s, by simp [hrefFalsy, hs], hs⟩

theorem mergeTopics_length :
    ∀ (ts : List (String × Topic)) acc rmap,
      (mergeTopics acc rmap ts).1.length = acc.length + ts.length := by
  intro ts
  induction ts with
  | nil => intro acc rmap; rfl
  | cons p rest ih =>
    intro acc rmap
    obtain ⟨tname, el⟩ := p
    rw [mergeTopics, ih]
    simp only [List.length_append, List.length_cons, List.length_nil]
    omega

theorem ensureLoop_new_children :
    ∀ (parts : List String) (st : MapState) (parent : Nat) (accum : List String),
      ∃ L, (ensureLoop st parent accum parts).2.children = st.children ++ L ∧
        ∀ c ∈ L, isRefNode c = false := by
  intro parts
  induction parts with
  | nil => exact fun st parent accum => ⟨[], by simp [ensureLoop], by simp⟩
  | cons part rest ih =>
    intro st parent accum
    rw [ensureLoop]
    cases hl : List.lookup (String.intercalate "/" (accum ++ [part])) st.cache with
    | some node => exact ih st node (accum ++ [part])
    | none =>
      obtain ⟨L, hL, hheads⟩ := ih
        { nextId := st.nextId + 1
          children := st.children ++ [ChildNode.head st.nextId parent part]
          cache := st.cache ++ [(String.intercalate "/" (accum ++ [part]), st.nextId)] }
        st.nextId (accum ++ [part])
      refine ⟨ChildNode.head st.nextId parent part :: L, ?_, ?_⟩
      · rw [hL]
        simp
      · intro c hc
        rcases List.mem_cons.mp hc with rfl | hc'
        · rfl
        · exact hheads c hc'

theorem ensure_folder_nodes_new_children (st : MapState) (relKey : String) :
    ∃ L, (ensure_folder_nodes st relKey).2.children = st.children ++ L ∧
      ∀ c ∈ L, isRefNode c = false := by
  unfold ensure_folder_nodes
  cases List.lookup relKey st.cache with
  | some node => exact ⟨[], by simp, by simp⟩
  | none => exact ensureLoop_new_children (partsOf relKey) st 0 []

theorem attachRef_adds_one_ref (fm : Bool) (ms : MapState) (f : VideoFile)
    (r : ConversionResult) (rmap : List (String × String))
    (h1 : r.topics ≠ []) :
    ((attachRef fm ms f r rmap).children.filter isRefNode).length =
      ((ms.children.filter isRefNode)).length + 1 := by
  obtain ⟨h, hch, hne⟩ := childHref_some_ne r h1
  unfold attachRef
  rw [hch]
  simp only [if_neg hne]
  by_cases hfm : fm ∧ relKeyOf f ≠ ""
  · rw [if_pos hfm]
    obtain ⟨L, hL, hheads⟩ := ensure_folder_nodes_new_children ms (relKeyOf f)
    simp only [hL, List.filter_append, List.length_append]
    have hLnil : L.filter isRefNode = [] := by
      rw [List.filter_eq_nil_iff]
      intro c hc
      simp [hheads c hc]
    rw [hLnil]
    simp [isRefNode]
  · rw [if_neg hfm]
    simp [isRefNode]

theorem attachRef_flat (ms : MapState) (f : VideoFile)
    (r : ConversionResult) (rmap : List (String × String))
    (h1 : r.topics ≠ []) :
    ∃ h, attachRef false ms f r rmap =
      { ms with children := ms.children ++ [ChildNode.ref 0 h (pyStem f.name)] } := by
  obtain ⟨h, hch, hne⟩ := childHref_some_ne r h1
  refine ⟨"topics/" ++ ((List.lookup (basename h) rmap).getD (basename h)), ?_⟩
  unfold attachRef
  rw [hch]
  simp only [if_neg hne]
  rw [if_neg (by simp)]

theorem videoHandler_ok_one_topic {f : VideoFile} {r : ConversionResult}
    (h : videoHandler f = some (Except.ok r)) : r.topics.length = 1 := by
  unfold videoHandler at h
  split at h
  · have h2 : convert_to_dita f = Except.ok r := Option.some.inj h
    unfold convert_to_dita at h2
    split at h2
    · cases h2
    · split at h2
      · cases h2
      · split at h2
        · rename_i r' heq
          cases h2
          unfold create_dita_context at heq
          split at heq
          · cases heq
          · cases heq
            rfl
        · cases h2
  · cases h

theorem convert_many_counts
    (handler : VideoFile → Option (Except ConvError ConversionResult)) (fm : Bool) :
    ∀ (files : List VideoFile) (st : Project × MapState) (proj : Project) (ms : MapState),
      (∀ f ∈ files, ∀ r, handler f = some (Except.ok r) → r.topics.length = 1) →
      convert_many handler fm files st = Except.ok (proj, ms) →
      proj.topics.length =
        st.1.topics.length + (files.filter (fun f => (handler f).isSome)).length ∧
      (ms.children.filter isRefNode).length =
        (st.2.children.filter isRefNode).length +
          (files.filter (fun f => (handler f).isSome)).length := by
  intro files
  induction files with
  | nil =>
    intro st proj ms hh hrun
    rw [convert_many] at hrun
    cases hrun
    simp
  | cons f rest ih =>
    intro st proj ms hh hrun
    rw [convert_many] at hrun
    cases hf : handler f with
    | none =>
      rw [hf] at hrun
      have hres := ih st proj ms (fun g hg => hh g (List.mem_cons_of_mem f hg)) hrun
      simpa [List.filter_cons, hf] using hres
    | some res =>
      cases res with
      | error e =>
        rw [hf] at hrun
        cases hrun
      | ok r =>
        rw [hf] at hrun
        have hr1 : r.topics.length = 1 := hh f (List.mem_cons_self f rest) r hf
        have hrne : r.topics ≠ [] := by
          intro hc
          rw [hc] at hr1
          simp at hr1
        have hres := ih (mergeResult fm st f r) proj ms
          (fun g hg => hh g (List.mem_cons_of_mem f hg)) hrun
        have hstep_t : (mergeResult fm st f r).1.topics.length =
            st.1.topics.length + 1 :=
          calc (mergeResult fm st f r).1.topics.length
              = (mergeTopics st.1.topics [] r.topics).1.length := rfl
            _ = st.1.topics.length + r.topics.length := mergeTopics_length _ _ _
            _ = st.1.topics.length + 1 := by rw [hr1]
        have hstep_r : (((mergeResult fm st f r).2).children.filter isRefNode).length =
            ((st.2.children.filter isRefNode)).length + 1 :=
          attachRef_adds_one_ref fm st.2 f r (mergeProject st.1 r).2 hrne
        rw [hstep_t, hstep_r] at hres
        constructor
        · rw [hres.1]
          simp [List.filter_cons, hf]
          omega
        · rw [hres.2]
          simp [List.filter_cons, hf]
          omega

/-- C5: in a successful aggregation run, files for which no handler is
available are skipped silently without failing the batch: the resulting
project holds exactly one topic per accepted file, the map holds exactly
one reference node per accepted file, and neither holds anything for an
unsupported file.  (The hypothesis that each accepted result carries
exactly one topic is what the in-repo converter produces, see
`videoHandler_ok_one_topic`.) -/
theorem skip_unsupported_counts
    (handler : VideoFile → Option (Except ConvError ConversionResult)) (fm : Bool)
    (files : List VideoFile) (proj : Project) (ms : MapState)
    (h1 : ∀ f ∈ files, ∀ r, handler f = some (Except.ok r) → r.topics.length = 1)
    (hrun : convert_many handler fm files initState = Except.ok (proj, ms)) :
    proj.topics.length = (files.filter (fun f => (handler f).isSome)).length ∧
    (ms.children.filter isRefNode).length =
      (files.filter (fun f => (handler f).isSome)).length := by
  have hres := convert_many_counts handler fm files initState proj ms h1 hrun
  simpa [initState] using hres

/-- Demo unsupported input (`b.txt` in the spec's skip-semantics example). -/
def textFile : VideoFile :=
  { name := "b.txt", dir := [], onDisk := true, readable := true, bytes := "t" }

/-- Project value produced by the run over `[a.mp4, b.txt, c.mp4]`. -/
def demoOkProject : Project :=
  { topics := [("a.dita", { id := "a", title := "a", objData := "../media/a.mp4" }),
               ("c.dita", { id := "c", title := "c", objData := "../media/c.mp4" })]
    images := []
    videos := [("a.mp4", "a"), ("c.mp4", "c")]
    auxIndex := [] }

/-- Map state produced by the run over `[a.mp4, b.txt, c.mp4]`. -/
def demoOkMap : MapState :=
  { nextId := 1
    children := [ChildNode.ref 0 "topics/a.dita" "a", ChildNode.ref 0 "topics/c.dita" "c"]
    cache := [] }

/-- witness for `skip_unsupported_counts` on `[a.mp4, b.txt, c.mp4]`. -/
theorem skip_unsupported_counts_witness :
    demoOkProject.topics.length =
      ([goodFile, textFile, lateFile].filter (fun f => (videoHandler f).isSome)).length ∧
    (demoOkMap.children.filter isRefNode).length =
      ([goodFile, textFile, lateFile].filter (fun f => (videoHandler f).isSome)).length :=
  skip_unsupported_counts videoHandler false [goodFile, textFile, lateFile]
    demoOkProject demoOkMap (fun f hf r h => videoHandler_ok_one_topic h) rfl

/-- C8: in a successful flat-mode run (no root directory supplied) the
children of the map root are exactly one reference node per accepted
input file, in input order, each attached directly to the root (parent 0,
so no folder nodes exist) and labelled with the file's stem. -/
theorem flat_mode_root_children
    (handler : VideoFile → Option (Except ConvError ConversionResult)) :
    ∀ (files : List VideoFile) (st : Project × MapState) (proj : Project) (ms : MapState),
      (∀ f ∈ files, ∀ r, handler f = some (Except.ok r) → r.topics.length = 1) →
      convert_many handler false files st = Except.ok (proj, ms) →
      ∃ L, ms.children = st.2.children ++ L ∧
        List.Forall₂ (fun f c => ∃ h, c = ChildNode.ref 0 h (pyStem f.name))
          (files.filter (fun f => (handler f).isSome)) L := by
  intro files
  induction files with
  | nil =>
    intro st proj ms hh hrun
    rw [convert_many] at hrun
    cases hrun
    exact ⟨[], by simp, by simp [List.Forall₂]⟩
  | cons f rest ih =>
    intro st proj ms hh hrun
    rw [convert_many] at hrun
    cases hf : handler f with
    | none =>
      rw [hf] at hrun
      obtain ⟨L, hL, hfa⟩ := ih st proj ms (fun g hg => hh g (List.mem_cons_of_mem f hg)) hrun
      exact ⟨L, hL, by simpa [List.filter_cons, hf] using hfa⟩
    | some res =>
      cases res with
      | error e =>
        rw [hf] at hrun
        cases hrun
      | ok r =>
        rw [hf] at hrun
        have hr1 : r.topics.length = 1 := hh f (List.mem_cons_self f rest) r hf
        have hrne : r.topics ≠ [] := by
          intro hc
          rw [hc] at hr1
          simp at hr1
        obtain ⟨href0, hat⟩ := attachRef_flat st.2 f r (mergeProject st.1 r).2 hrne
        obtain ⟨L, hL, hfa⟩ := ih (mergeResult false st f r) proj ms
          (fun g hg => hh g (List.mem_cons_of_mem f hg)) hrun
        have hms2 : (mergeResult false st f r).2.children =
            st.2.children ++ [ChildNode.ref 0 href0 (pyStem f.name)] := by
          show (attachRef false st.2 f r (mergeProject st.1 r).2).children = _
          rw [hat]
        refine ⟨ChildNode.ref 0 href0 (pyStem f.name) :: L, ?_, ?_⟩
        · rw [hL, hms2]
          simp
        · rw [List.filter_cons]
          have hcond : (fun g => (handler g).isSome) f = true := by
            simp [hf]
          rw [if_pos hcond]
          exact List.Forall₂.cons ⟨href0, rfl⟩ hfa

/-- witness for `flat_mode_root_children` on `[a.mp4, b.txt, c.mp4]`. -/
theorem flat_mode_root_children_witness :
    ∃ L, demoOkMap.children = initState.2.children ++ L ∧
      List.Forall₂ (fun f c => ∃ h, c = ChildNode.ref 0 h (pyStem f.name))
        ([goodFile, textFile, lateFile].filter (fun f => (videoHandler f).isSome)) L :=
  flat_mode_root_children videoHandler [goodFile, textFile, lateFile] initState
    demoOkProject demoOkMap (fun f hf r h => videoHandler_ok_one_topic h) rfl

/-! ### Character-level facts about generated topic ids -/

theorem replacePairs_subset : ∀ l : List Char, ∀ c ∈ replacePairs l, c ∈ l := by
  intro l
  induction l using replacePairs.induct with
  | case1 => simp [replacePairs]
  | case2 d => simp [replacePairs]
  | case3 a b rest hab ih =>
    intro c hc
    rw [replacePairs, if_pos hab] at hc
    rcases List.mem_cons.mp hc with rfl | hc'
    · rw [hab.1]
      exact List.mem_cons_self _ _
    · exact List.mem_cons_of_mem a (List.mem_cons_of_mem b (ih c hc'))
  | case4 a b rest hab ih =>
    intro c hc
    rw [replacePairs, if_neg hab] at hc
    rcases List.mem_cons.mp hc with rfl | hc'
    · exact List.mem_cons_self _ _
    · exact List.mem_cons_of_mem a (ih c hc')

theorem squeezeLoop_subset : ∀ (fuel : Nat) (l : List Char),
    ∀ c ∈ squeezeLoop fuel l, c ∈ l := by
  intro fuel
  induction fuel with
  | zero => intro l c hc; exact hc
  | succ fu ih =>
    intro l c hc
    rw [squeezeLoop] at hc
    by_cases h : hasDD l = true
    · rw [if_pos h] at hc
      exact replacePairs_subset l c (ih (replacePairs l) c hc)
    · rw [if_neg h] at hc
      exact hc

theorem squeezeHyphens_subset (l : List Char) : ∀ c ∈ squeezeHyphens l, c ∈ l :=
  squeezeLoop_subset l.length l

theorem topicIdChars_alnum_or_dash :
    ∀ l : List Char, ∀ c ∈ topicIdChars l, pyIsAlnum c = true ∨ c = '-' := by
  intro l
  induction l with
  | nil => simp [topicIdChars]
  | cons a rest ih =>
    intro c hc
    rw [topicIdChars] at hc
    by_cases h1 : pyIsAlnum (pyToLower a) = true
    · rw [if_pos h1] at hc
      rcases List.mem_cons.mp hc with rfl | hc'
      · exact Or.inl h1
      · exact ih c hc'
    · rw [if_neg h1] at hc
      by_cases h2 : pyToLower a = ' ' ∨ pyToLower a = '-' ∨ pyToLower a = '_' ∨
          pyToLower a = '.'
      · rw [if_pos h2] at hc
        rcases List.mem_cons.mp hc with rfl | hc'
        · exact Or.inr rfl
        · exact ih c hc'
      · rw [if_neg h2] at hc
        exact ih c hc

theorem stripDashes_subset (l : List Char) : ∀ c ∈ stripDashes l, c ∈ l := by
  intro c hc
  unfold stripDashes at hc
  rw [List.mem_reverse] at hc
  have h1 := (List.dropWhile_sublist (l := (l.dropWhile (fun c => c = '-')).reverse)
    (fun c => c = '-')).subset hc
  rw [List.mem_reverse] at h1
  exact (List.dropWhile_sublist (fun c => c = '-')).subset h1

theorem video_dash_chars :
    ∀ c ∈ ("video-").data, pyIsAlnum c = true ∨ c = '-' := by decide

theorem generate_topic_id_alnum_dash {filename tid : String}
    (h : generate_topic_id filename = some tid) :
    ∀ c ∈ tid.data, pyIsAlnum c = true ∨ c = '-' := by
  intro c hc
  unfold generate_topic_id at h
  cases hsq : squeezeHyphens (topicIdChars (pyStem filename).data) with
  | nil => rw [hsq] at h; cases h
  | cons c0 rest =>
    rw [hsq] at h
    simp only [Option.some.injEq] at h
    have hdata : tid.data = stripDashes ((if pyIsAlpha c0 = false then
        ("video-").data ++ (c0 :: rest) else c0 :: rest).take 50) := by
      rw [← h]
      rfl
    rw [hdata] at hc
    have h1 := stripDashes_subset _ c hc
    have h2 := List.take_subset 50 _ h1
    by_cases ha : pyIsAlpha c0 = false
    · rw [if_pos ha] at h2
      rcases List.mem_append.mp h2 with hv | ht
      · exact video_dash_chars c hv
      · have := hsq ▸ ht
        exact topicIdChars_alnum_or_dash _ c
          (squeezeHyphens_subset _ c (hsq ▸ ht))
    · rw [if_neg ha] at h2
      exact topicIdChars_alnum_or_dash _ c (squeezeHyphens_subset _ c (hsq ▸ h2))

/-! ### Facts about `lastIdx` and `basename` -/

theorem lastIdx_append (c : Char) (l1 l2 : List Char) :
    lastIdx c (l1 ++ l2) =
      match lastIdx c l2 with
      | some i => some (i + l1.length)
      | none => lastIdx c l1 := by
  induction l1 with
  | nil =>
    simp only [List.nil_append]
    cases h : lastIdx c l2 with
    | none => rfl
    | some i => rfl
  | cons a l1 ih =>
    rw [List.cons_append, lastIdx, ih]
    cases h2 : lastIdx c l2 with
    | some i =>
      simp only [List.length_cons]
      rw [show i + (l1.length + 1) = (i + l1.length) + 1 from rfl]
    | none =>
      rw [lastIdx]

theorem lastIdx_eq_none_iff (c : Char) : ∀ l : List Char, lastIdx c l = none ↔ c ∉ l := by
  intro l
  induction l with
  | nil => simp [lastIdx]
  | cons a rest ih =>
    rw [lastIdx]
    cases h : lastIdx c rest with
    | some i =>
      have hcr : c ∈ rest := by
        by_contra hcc
        rw [ih.mpr hcc] at h
        cases h
      constructor
      · intro hcontra; cases hcontra
      · intro hnot; exact absurd (List.mem_cons_of_mem a hcr) hnot
    | none =>
      by_cases hac : a = c
      · rw [if_pos hac]
        constructor
        · intro hcontra; cases hcontra
        · intro hnot; exact absurd (hac ▸ List.mem_cons_self a rest) hnot
      · rw [if_neg hac]
        have hcr : c ∉ rest := ih.mp h
        constructor
        · intro _ hmem
          rcases List.mem_cons.mp hmem with heq | hmem'
          · exact hac heq.symm
          · exact hcr hmem'
        · intro _
          rfl

theorem data_asString (l : List Char) : (List.asString l).data = l := rfl

theorem asString_data (s : String) : List.asString s.data = s := rfl

theorem basename_topics_pre (k : String) (hk : '/' ∉ k.data) :
    basename ("topics/" ++ k) = k := by
  unfold basename
  rw [String.data_append]
  rw [lastIdx_append]
  rw [(lastIdx_eq_none_iff '/' k.data).mpr hk]
  rw [show lastIdx '/' ("topics/").data = some 6 from rfl]
  simp only
  rw [show (6 : Nat) + 1 = ("topics/").data.length from rfl]
  rw [List.drop_left]
  exact asString_data k

/-! ### Claim C2: reference integrity after topic renames -/

theorem lookup_eq_none_of_keys {β : Type} (b : String) :
    ∀ l : List (String × β), (∀ p ∈ l, p.1 ≠ b) → List.lookup b l = none := by
  intro l
  induction l with
  | nil => intro _; rfl
  | cons p rest ih =>
    intro hk
    obtain ⟨a, v⟩ := p
    rw [List.lookup]
    have hne : (b == a) = false := by
      rw [beq_eq_false_iff_ne]
      exact fun hcontra => hk (a, v) (List.mem_cons_self _ _) hcontra.symm
    rw [hne]
    exact ih (fun q hq => hk q (List.mem_cons_of_mem _ hq))

theorem mergeTopics_extends :
    ∀ (ts : List (String × Topic)) (acc : List (String × Topic))
      (rmap : List (String × String)),
      ∃ tail, (mergeTopics acc rmap ts).1 = acc ++ tail := by
  intro ts
  induction ts with
  | nil => exact fun acc rmap => ⟨[], by rw [mergeTopics]; simp⟩
  | cons p rest ih =>
    intro acc rmap
    obtain ⟨tname, el⟩ := p
    rw [mergeTopics]
    obtain ⟨tail, htail⟩ := ih
      (acc ++ [(dedup_name tname (acc.map Prod.fst), el)])
      (if dedup_name tname (acc.map Prod.fst) ≠ tname then
        rmap ++ [(tname, dedup_name tname (acc.map Prod.fst))] else rmap)
    exact ⟨(dedup_name tname (acc.map Prod.fst), el) :: tail, by rw [htail]; simp⟩

theorem mergeTopics_rmap_extends :
    ∀ (ts : List (String × Topic)) (acc : List (String × Topic))
      (rmap : List (String × String)),
      ∃ add, (mergeTopics acc rmap ts).2 = rmap ++ add ∧
        ∀ p ∈ add, p.1 ∈ ts.map Prod.fst := by
  intro ts
  induction ts with
  | nil => exact fun acc rmap => ⟨[], by rw [mergeTopics]; simp, by simp⟩
  | cons p rest ih =>
    intro acc rmap
    obtain ⟨tname, el⟩ := p
    rw [mergeTopics]
    by_cases hren : dedup_name tname (acc.map Prod.fst) ≠ tname
    · rw [if_pos hren]
      obtain ⟨add, hadd, hkeys⟩ := ih
        (acc ++ [(dedup_name tname (acc.map Prod.fst), el)])
        (rmap ++ [(tname, dedup_name tname (acc.map Prod.fst))])
      refine ⟨(tname, dedup_name tname (acc.map Prod.fst)) :: add, ?_, ?_⟩
      · rw [hadd]
        simp
      · intro q hq
        rcases List.mem_cons.mp hq with rfl | hq'
        · simp
        · simp only [List.map_cons]
          exact List.mem_cons_of_mem _ (hkeys q hq')
    · rw [if_neg hren]
      obtain ⟨add, hadd, hkeys⟩ := ih
        (acc ++ [(dedup_name tname (acc.map Prod.fst), el)]) rmap
      refine ⟨add, hadd, ?_⟩
      intro q hq
      simp only [List.map_cons]
      exact List.mem_cons_of_mem _ (hkeys q hq)

theorem mergeTopics_rename_target :
    ∀ (ts : List (String × Topic)) (acc : List (String × Topic))
      (rmap : List (String × String)),
      (ts.map Prod.fst).Nodup →
      (∀ b ∈ ts.map Prod.fst, List.lookup b rmap = none) →
      ∀ b ∈ ts.map Prod.fst,
        ((List.lookup b (mergeTopics acc rmap ts).2).getD b) ∈
          (mergeTopics acc rmap ts).1.map Prod.fst := by
  intro ts
  induction ts with
  | nil => intro acc rmap _ _ b hb; cases hb
  | cons p rest ih =>
    intro acc rmap hnd hnone b hb
    obtain ⟨tname, el⟩ := p
    rw [List.map_cons] at hnd
    have hnd' := List.nodup_cons.mp hnd
    rw [mergeTopics]
    simp only [List.map_cons] at hb
    rcases List.mem_cons.mp hb with rfl | hbrest
    · -- b is the current topic's original filename
      by_cases hren : dedup_name b (acc.map Prod.fst) ≠ b
      · rw [if_pos hren]
        obtain ⟨add, hadd, hkeys⟩ := mergeTopics_rmap_extends rest
          (acc ++ [(dedup_name b (acc.map Prod.fst), el)])
          (rmap ++ [(b, dedup_name b (acc.map Prod.fst))])
        rw [hadd, List.lookup_append, List.lookup_append]
        rw [hnone b (by simp)]
        rw [show List.lookup b [(b, dedup_name b (acc.map Prod.fst))] =
          some (dedup_name b (acc.map Prod.fst)) by simp [List.lookup]]
        simp only [Option.none_or, Option.or_some, Option.getD_some]
        obtain ⟨tail, htail⟩ := mergeTopics_extends rest
          (acc ++ [(dedup_name b (acc.map Prod.fst), el)])
          (rmap ++ [(b, dedup_name b (acc.map Prod.fst))])
        rw [htail]
        simp
      · rw [if_neg hren]
        obtain ⟨add, hadd, hkeys⟩ := mergeTopics_rmap_extends rest
          (acc ++ [(dedup_name b (acc.map Prod.fst), el)]) rmap
        rw [hadd, List.lookup_append]
        rw [hnone b (by simp)]
        rw [lookup_eq_none_of_keys b add
          (fun q hq hcontra => hnd'.1 (hcontra ▸ hkeys q hq))]
        simp only [Option.none_or, Option.getD_none]
        obtain ⟨tail, htail⟩ := mergeTopics_extends rest
          (acc ++ [(dedup_name b (acc.map Prod.fst), el)]) rmap
        rw [htail]
        have hbeq : dedup_name b (acc.map Prod.fst) = b := by
          by_contra hc
          exact hren hc
        rw [hbeq]
        simp
    · -- b belongs to the remaining topics
      by_cases hren : dedup_name tname (acc.map Prod.fst) ≠ tname
      · rw [if_pos hren]
        refine ih _ _ hnd'.2 ?_ b hbrest
        intro b' hb'
        rw [List.lookup_append]
        rw [hnone b' (List.mem_cons_of_mem _ hb')]
        rw [lookup_eq_none_of_keys b'
          [(tname, dedup_name tname (acc.map Prod.fst))]
          (by
            intro q hq hcontra
            rw [List.mem_singleton] at hq
            subst hq
            exact hnd'.1 (hcontra ▸ hb'))]
        rfl
      · rw [if_neg hren]
        exact ih _ _ hnd'.2 (fun b' hb' => hnone b' (List.mem_cons_of_mem _ hb')) b hbrest

/-- Well-formedness of one conversion result, as the spec's
`ConversionResult` contract states it: topic filenames are distinct and
contain no path separator, and the map fragment's reference targets one
of the result's own topic filenames. -/
def wellFormedResult (r : ConversionResult) : Prop :=
  (r.topics.map Prod.fst).Nodup ∧
  (∀ k ∈ r.topics.map Prod.fst, '/' ∉ k.data) ∧
  (∀ h, r.mapHref = some h → h ≠ "" → basename h ∈ r.topics.map Prod.fst)

theorem childHref_basename_target (r : ConversionResult)
    (hwf : wellFormedResult r) :
    ∀ h, childHref r = some h → h ≠ "" → basename h ∈ r.topics.map Prod.fst := by
  intro h hch hne
  unfold childHref at hch
  by_cases hf : hrefFalsy r.mapHref = true
  · rw [if_pos hf] at hch
    cases htop : r.topics with
    | nil =>
      rw [htop] at hch
      cases hm : r.mapHref with
      | none => rw [hm] at hch; cases hch
      | some s =>
        rw [hm] at hch
        cases hch
        rw [hm] at hf
        simp only [hrefFalsy] at hf
        by_cases hs : h = ""
        · exact absurd hs hne
        · rw [if_neg hs] at hf
          cases hf
    | cons p rest =>
      rw [htop] at hch
      cases hch
      rw [basename_topics_pre p.1 (hwf.2.1 p.1 (by rw [htop]; simp))]
      simp
  · rw [if_neg hf] at hch
    exact hwf.2.2 h hch hne

/-- Reference-integrity invariant: every reference node in the map
targets `topics/<k>` for a topic filename `k` present in the project. -/
def refTargetsOk (proj : Project) (ms : MapState) : Prop :=
  ∀ c ∈ ms.children, ∀ p h n, c = ChildNode.ref p h n →
    ∃ k ∈ proj.topics.map Prod.fst, h = "topics/" ++ k

theorem mergeResult_preserves_targets (fm : Bool) (st : Project × MapState)
    (f : VideoFile) (r : ConversionResult) (hwf : wellFormedResult r)
    (hok : refTargetsOk st.1 st.2) :
    refTargetsOk (mergeResult fm st f r).1 (mergeResult fm st f r).2 := by
  intro c hc p h n hceq
  obtain ⟨tail, htail⟩ := mergeTopics_extends r.topics st.1.topics []
  have hmono : ∀ k, k ∈ st.1.topics.map Prod.fst →
      k ∈ (mergeResult fm st f r).1.topics.map Prod.fst := by
    intro k hk
    show k ∈ (mergeTopics st.1.topics [] r.topics).1.map Prod.fst
    rw [htail]
    simp only [List.map_append, List.mem_append]
    exact Or.inl hk
  have hc' : c ∈ (attachRef fm st.2 f r (mergeTopics st.1.topics [] r.topics).2).children :=
    hc
  unfold attachRef at hc'
  cases hch : childHref r with
  | none =>
    rw [hch] at hc'
    obtain ⟨k, hk, hkeq⟩ := hok c hc' p h n hceq
    exact ⟨k, hmono k hk, hkeq⟩
  | some h0 =>
    rw [hch] at hc'
    by_cases h0e : h0 = ""
    · simp only [if_pos h0e] at hc'
      obtain ⟨k, hk, hkeq⟩ := hok c hc' p h n hceq
      exact ⟨k, hmono k hk, hkeq⟩
    · simp only [if_neg h0e] at hc'
      have hparent : ∃ L, ((if fm ∧ relKeyOf f ≠ "" then
          ensure_folder_nodes st.2 (relKeyOf f) else (0, st.2)) :
            Nat × MapState).2.children = st.2.children ++ L ∧
          ∀ d ∈ L, isRefNode d = false := by
        by_cases hcond : fm ∧ relKeyOf f ≠ ""
        · rw [if_pos hcond]
          exact ensure_folder_nodes_new_children st.2 (relKeyOf f)
        · rw [if_neg hcond]
          exact ⟨[], by simp, by simp⟩
      obtain ⟨L, hL, hheads⟩ := hparent
      rw [hL] at hc'
      rcases List.mem_append.mp hc' with hold | hnew
      · rcases List.mem_append.mp hold with hold' | hin
        · obtain ⟨k, hk, hkeq⟩ := hok c hold' p h n hceq
          exact ⟨k, hmono k hk, hkeq⟩
        · exfalso
          have := hheads c hin
          rw [hceq] at this
          simp [isRefNode] at this
      · rw [List.mem_singleton] at hnew
        rw [hnew] at hceq
        have hh : h = "topics/" ++ ((List.lookup (basename h0)
            (mergeTopics st.1.topics [] r.topics).2).getD (basename h0)) := by
          cases hceq
          rfl
        have hbase : basename h0 ∈ r.topics.map Prod.fst :=
          childHref_basename_target r hwf h0 hch h0e
        have htarget := mergeTopics_rename_target r.topics st.1.topics []
          hwf.1 (fun b _ => rfl) (basename h0) hbase
        exact ⟨_, htarget, hh⟩

theorem convert_many_targets
    (handler : VideoFile → Option (Except ConvError ConversionResult)) (fm : Bool) :
    ∀ (files : List VideoFile) (st : Project × MapState) (proj : Project) (ms : MapState),
      (∀ f r, handler f = some (Except.ok r) → wellFormedResult r) →
      refTargetsOk st.1 st.2 →
      convert_many handler fm files st = Except.ok (proj, ms) →
      refTargetsOk proj ms := by
  intro files
  induction files with
  | nil =>
    intro st proj ms _ hok hrun
    rw [convert_many] at hrun
    cases hrun
    exact hok
  | cons f rest ih =>
    intro st proj ms hwf hok hrun
    rw [convert_many] at hrun
    cases hf : handler f with
    | none =>
      rw [hf] at hrun
      exact ih st proj ms hwf hok hrun
    | some res =>
      cases res with
      | error e =>
        rw [hf] at hrun
        cases hrun
      | ok r =>
        rw [hf] at hrun
        exact ih (mergeResult fm st f r) proj ms hwf
          (mergeResult_preserves_targets fm st f r (hwf f r hf) hok) hrun

/-- C2: in every successful aggregation run every reference node of the
output map targets a topic filename present in the project's topics map:
whenever a per-file topic filename is renamed during the merge, the
reference attached for that file is rewritten to the renamed filename
before attachment.  (The well-formedness hypothesis is the spec's
`ConversionResult` contract; `videoHandler_ok_wellFormed` shows the
in-repo converter satisfies it.) -/
theorem reference_integrity
    (handler : VideoFile → Option (Except ConvError ConversionResult)) (fm : Bool)
    (files : List VideoFile) (proj : Project) (ms : MapState)
    (hwf : ∀ f r, handler f = some (Except.ok r) → wellFormedResult r)
    (hrun : convert_many handler fm files initState = Except.ok (proj, ms)) :
    ∀ c ∈ ms.children, ∀ p h n, c = ChildNode.ref p h n →
      ∃ k ∈ proj.topics.map Prod.fst, h = "topics/" ++ k :=
  convert_many_targets handler fm files initState proj ms hwf
    (fun c hc => absurd hc (List.not_mem_nil c)) hrun

theorem videoHandler_ok_wellFormed {f : VideoFile} {r : ConversionResult}
    (h : videoHandler f = some (Except.ok r)) : wellFormedResult r := by
  unfold videoHandler at h
  split at h
  · have h2 : convert_to_dita f = Except.ok r := Option.some.inj h
    unfold convert_to_dita at h2
    split at h2
    · cases h2
    · split at h2
      · cases h2
      · split at h2
        · rename_i r' heq
          cases h2
          unfold create_dita_context at heq
          cases htid : generate_topic_id f.name with
          | none =>
            rw [htid] at heq
            cases heq
          | some tid =>
            rw [htid] at heq
            cases heq
            have hnoslash : '/' ∉ (tid ++ ".dita").data := by
              rw [String.data_append]
              intro hmem
              rcases List.mem_append.mp hmem with h1 | h1
              · rcases generate_topic_id_alnum_dash htid '/' h1 with hal | hd
                · exact absurd hal (by decide)
                · exact absurd hd (by decide)
              · exact absurd h1 (by decide)
            refine ⟨by simp, ?_, ?_⟩
            · intro k hk
              simp only [List.map_cons, List.map_nil, List.mem_singleton] at hk
              rw [hk]
              exact hnoslash
            · intro h' hh' _
              simp only [Option.some.injEq] at hh'
              rw [← hh']
              rw [basename_topics_pre (tid ++ ".dita") hnoslash]
              simp
        · cases h2
  · cases h

/-- witness for `reference_integrity`: the renamed-topic reference node
of the two-file collision batch targets a key in the merged topics. -/
theorem reference_integrity_witness :
    ∃ k ∈ (Project.mk
        [("clip.dita", { id := "clip", title := "clip", objData := "../media/clip.mp4" }),
         ("clip-2.dita", { id := "clip", title := "clip", objData := "../media/clip.mp4" })]
        [] [("clip.mp4", "A"), ("clip-2.mp4", "B")] []).topics.map Prod.fst,
      "topics/clip-2.dita" = "topics/" ++ k :=
  reference_integrity videoHandler false [fileA, fileB]
    (Project.mk
      [("clip.dita", { id := "clip", title := "clip", objData := "../media/clip.mp4" }),
       ("clip-2.dita", { id := "clip", title := "clip", objData := "../media/clip.mp4" })]
      [] [("clip.mp4", "A"), ("clip-2.mp4", "B")] [])
    (MapState.mk 1
      [ChildNode.ref 0 "topics/clip.dita" "clip",
       ChildNode.ref 0 "topics/clip-2.dita" "clip"] [])
    (fun f r hfr => videoHandler_ok_wellFormed hfr) rfl
    (ChildNode.ref 0 "topics/clip-2.dita" "clip") (by decide)
    0 "topics/clip-2.dita" "clip" rfl

/-! ### Claim C7: auxiliary metadata re-keying -/

/-- Key-level shadow of `mergeEntries`: the final keys depend only on the
key sequences, not on the stored values. -/
def mergeKeys : List String → List String → List String
  | ks, [] => ks
  | ks, n :: rest => mergeKeys (ks ++ [dedup_name n ks]) rest

theorem mergeEntries_keys {α : Type} :
    ∀ (ents : List (String × α)) (acc : List (String × α)),
      (mergeEntries acc ents).map Prod.fst =
        mergeKeys (acc.map Prod.fst) (ents.map Prod.fst) := by
  intro ents
  induction ents with
  | nil => intro acc; rfl
  | cons p rest ih =>
    intro acc
    obtain ⟨k, v⟩ := p
    rw [mergeEntries, List.map_cons, mergeKeys, ih]
    congr 1
    simp

theorem mergeEntries_values {α : Type} :
    ∀ (ents : List (String × α)) (acc : List (String × α)),
      (mergeEntries acc ents).map Prod.snd =
        acc.map Prod.snd ++ ents.map Prod.snd := by
  intro ents
  induction ents with
  | nil => intro acc; simp [mergeEntries]
  | cons p rest ih =>
    intro acc
    obtain ⟨k, v⟩ := p
    rw [mergeEntries, ih]
    simp

theorem convert_many_aux_videos
    (handler : VideoFile → Option (Except ConvError ConversionResult)) (fm : Bool) :
    ∀ (files : List VideoFile) (st : Project × MapState) (proj : Project) (ms : MapState),
      (∀ f ∈ files, ∀ r, handler f = some (Except.ok r) →
        r.auxInfo.map Prod.fst = r.videos.map Prod.fst) →
      st.1.auxIndex.map Prod.fst = st.1.videos.map Prod.fst →
      convert_many handler fm files st = Except.ok (proj, ms) →
      proj.auxIndex.map Prod.fst = proj.videos.map Prod.fst ∧
      proj.auxIndex.map Prod.snd = st.1.auxIndex.map Prod.snd ++
        ((files.filterMap (fun f => match handler f with
          | some (Except.ok r) => some r
          | _ => none)).map (fun r => r.auxInfo.map Prod.snd)).join := by
  intro files
  induction files with
  | nil =>
    intro st proj ms _ hinv hrun
    rw [convert_many] at hrun
    cases hrun
    exact ⟨hinv, by simp⟩
  | cons f rest ih =>
    intro st proj ms hk hinv hrun
    rw [convert_many] at hrun
    cases hf : handler f with
    | none =>
      rw [hf] at hrun
      have hres := ih st proj ms (fun g hg => hk g (List.mem_cons_of_mem f hg)) hinv hrun
      refine ⟨hres.1, ?_⟩
      rw [hres.2]
      simp [List.filterMap_cons, hf]
    | some res =>
      cases res with
      | error e =>
        rw [hf] at hrun
        cases hrun
      | ok r =>
        rw [hf] at hrun
        have hkr := hk f (List.mem_cons_self f rest) r hf
        have hinv' : (mergeResult fm st f r).1.auxIndex.map Prod.fst =
            (mergeResult fm st f r).1.videos.map Prod.fst := by
          show (mergeEntries st.1.auxIndex r.auxInfo).map Prod.fst =
            (mergeEntries st.1.videos r.videos).map Prod.fst
          rw [mergeEntries_keys, mergeEntries_keys, hinv, hkr]
        have hres := ih (mergeResult fm st f r) proj ms
          (fun g hg => hk g (List.mem_cons_of_mem f hg)) hinv' hrun
        refine ⟨hres.1, ?_⟩
        rw [hres.2]
        have hvals : (mergeResult fm st f r).1.auxIndex.map Prod.snd =
            st.1.auxIndex.map Prod.snd ++ r.auxInfo.map Prod.snd := by
          show (mergeEntries st.1.auxIndex r.auxInfo).map Prod.snd = _
          exact mergeEntries_values r.auxInfo st.1.auxIndex
        rw [hvals]
        simp [List.filterMap_cons, hf]

/-- C7: the aggregation run preserves all per-file auxiliary metadata
(`video_info_map`) and re-keys it consistently with the media rename:
after a successful run the key sequence of the auxiliary-metadata index
equals the key sequence of the merged video map — so the entry merged for
any accepted file, renamed or not, sits under exactly the final key of
that file's media blob — and the auxiliary values are preserved in input
order.  The hypothesis that per-file auxiliary metadata is keyed by the
file's media filenames is the spec's `auxMetadata` contract. -/
theorem aux_metadata_rekeyed
    (handler : VideoFile → Option (Except ConvError ConversionResult)) (fm : Bool)
    (files : List VideoFile) (proj : Project) (ms : MapState)
    (haux : ∀ f ∈ files, ∀ r, handler f = some (Except.ok r) →
      r.auxInfo.map Prod.fst = r.videos.map Prod.fst)
    (hrun : convert_many handler fm files initState = Except.ok (proj, ms)) :
    proj.auxIndex.map Prod.fst = proj.videos.map Prod.fst ∧
    proj.auxIndex.map Prod.snd =
      ((files.filterMap (fun f => match handler f with
        | some (Except.ok r) => some r
        | _ => none)).map (fun r => r.auxInfo.map Prod.snd)).join := by
  have hres := convert_many_aux_videos handler fm files initState proj ms haux rfl hrun
  exact ⟨hres.1, by rw [hres.2]; rfl⟩

/-- Modelled from the spec: an external converter that, unlike the
in-repo one, also fills the optional per-file auxiliary metadata
(`auxMetadata`), keyed by the media filename as the spec requires. -/
def auxHandler (f : VideoFile) : Option (Except ConvError ConversionResult) :=
  match videoHandler f with
  | some (Except.ok r) =>
    some (Except.ok { r with
      auxInfo := r.videos.map (fun p => (p.1, "info-" ++ p.1)) })
  | other => other

theorem auxHandler_keys :
    ∀ f r, auxHandler f = some (Except.ok r) →
      r.auxInfo.map Prod.fst = r.videos.map Prod.fst := by
  intro f r h
  unfold auxHandler at h
  cases hv : videoHandler f with
  | none => rw [hv] at h; cases h
  | some res =>
    cases res with
    | error e => rw [hv] at h; cases h
    | ok r0 =>
      rw [hv] at h
      cases h
      simp

/-- Project produced by the aux-metadata collision run over
`[a/clip.mp4, b/clip.mp4]`. -/
def auxDemoProject : Project :=
  { topics := [("clip.dita", { id := "clip", title := "clip", objData := "../media/clip.mp4" }),
               ("clip-2.dita", { id := "clip", title := "clip", objData := "../media/clip.mp4" })]
    images := []
    videos := [("clip.mp4", "A"), ("clip-2.mp4", "B")]
    auxIndex := [("clip.mp4", "info-clip.mp4"), ("clip-2.mp4", "info-clip.mp4")] }

/-- Map state produced by the aux-metadata collision run. -/
def auxDemoMap : MapState :=
  { nextId := 1
    children := [ChildNode.ref 0 "topics/clip.dita" "clip",
                 ChildNode.ref 0 "topics/clip-2.dita" "clip"]
    cache := [] }

/-- witness for `aux_metadata_rekeyed` on the two-file collision batch. -/
theorem aux_metadata_rekeyed_witness :
    auxDemoProject.auxIndex.map Prod.fst = auxDemoProject.videos.map Prod.fst ∧
    auxDemoProject.auxIndex.map Prod.snd =
      (([fileA, fileB].filterMap (fun f => match auxHandler f with
        | some (Except.ok r) => some r
        | _ => none)).map (fun r => r.auxInfo.map Prod.snd)).join :=
  aux_metadata_rekeyed auxHandler false [fileA, fileB] auxDemoProject auxDemoMap
    (fun f _ r h => auxHandler_keys f r h) rfl

/-! ### Claim C6: the folder-node cache -/

/-- The successive `(cache key, segment)` pairs visited by the walking
loop: the key of each segment is the accumulated path prefix joined by
`/`. -/
def prefPairs (accum : List String) : List String → List (String × String)
  | [] => []
  | part :: rest =>
    (String.intercalate "/" (accum ++ [part]), part) :: prefPairs (accum ++ [part]) rest

theorem string_ne_empty_length {s : String} (h : s ≠ "") : 0 < s.length := by
  by_contra hc
  push_neg at hc
  have h0 : s.data.length = 0 := by
    have : s.length = 0 := by omega
    exact this
  exact h (String.ext (List.length_eq_zero.mp h0))

theorem intercalate_go_snoc (s : String) :
    ∀ (as : List String) (acc part : String),
      String.intercalate.go acc s (as ++ [part]) =
        String.intercalate.go acc s as ++ s ++ part := by
  intro as
  induction as with
  | nil => intro acc part; rfl
  | cons a as ih =>
    intro acc part
    rw [List.cons_append]
    show String.intercalate.go (acc ++ s ++ a) s (as ++ [part]) = _
    rw [ih]
    rfl

theorem intercalate_snoc (accum : List String) (part : String) :
    String.intercalate "/" (accum ++ [part]) =
      if accum = [] then part else String.intercalate "/" accum ++ "/" ++ part := by
  cases accum with
  | nil => rfl
  | cons a as =>
    rw [if_neg (by simp)]
    rw [List.cons_append]
    show String.intercalate.go a "/" (as ++ [part]) = _
    rw [intercalate_go_snoc]
    rfl

theorem intercalate_snoc_length (accum : List String) (part : String)
    (hp : part ≠ "") :
    (String.intercalate "/" accum).length <
      (String.intercalate "/" (accum ++ [part])).length := by
  rw [intercalate_snoc]
  by_cases ha : accum = []
  · rw [if_pos ha, ha]
    show ("" : String).length < part.length
    simpa using string_ne_empty_length hp
  · rw [if_neg ha]
    rw [String.length_append, String.length_append]
    have hlen := string_ne_empty_length hp
    have h1 : ("/" : String).length = 1 := rfl
    omega

theorem prefPairs_key_gt :
    ∀ (parts : List String) (accum : List String),
      (∀ p ∈ parts, p ≠ "") →
      ∀ pr ∈ prefPairs accum parts,
        (String.intercalate "/" accum).length < pr.1.length := by
  intro parts
  induction parts with
  | nil => intro accum _ pr hpr; cases hpr
  | cons part rest ih =>
    intro accum hps pr hpr
    rw [prefPairs] at hpr
    rcases List.mem_cons.mp hpr with rfl | hpr'
    · exact intercalate_snoc_length accum part (hps part (List.mem_cons_self _ _))
    · have h1 := ih (accum ++ [part]) (fun p hp => hps p (List.mem_cons_of_mem _ hp)) pr hpr'
      have h2 := intercalate_snoc_length accum part (hps part (List.mem_cons_self _ _))
      omega

theorem partsOf_all_ne_empty (relKey : String) : ∀ p ∈ partsOf relKey, p ≠ "" := by
  intro p hp
  unfold partsOf at hp
  have := (List.mem_filter.mp hp).2
  exact of_decide_eq_true this

/-- Walking discipline of `_ensure_folder_nodes`, stated against the
cache as it was at entry: starting from `parent`, each
`(prefix key, segment)` pair of the walk resolves to a node.  A prefix
already present in the cache resolves to its cached node, which is
reused as the parent for the remaining segments and contributes no new
node and no new cache entry; an absent prefix contributes exactly one
new folder node, labelled with that segment and attached under the
current parent, together with exactly one new cache entry binding the
prefix key to that node's id, and the new node becomes the parent for
the remaining segments.  The last index is the node the deepest prefix
resolves to. -/
inductive ChainOk (oldCache : List (String × Nat)) :
    Nat → List (String × String) → List ChildNode → List (String × Nat) → Nat → Prop where
  | nil (parent : Nat) : ChainOk oldCache parent [] [] [] parent
  | cached (parent : Nat) (key seg : String) (node finalNode : Nat)
      (rest : List (String × String)) (heads : List ChildNode)
      (entries : List (String × Nat))
      (hc : List.lookup key oldCache = some node)
      (htail : ChainOk oldCache node rest heads entries finalNode) :
      ChainOk oldCache parent ((key, seg) :: rest) heads entries finalNode
  | created (parent : Nat) (key seg : String) (id finalNode : Nat)
      (rest : List (String × String)) (heads : List ChildNode)
      (entries : List (String × Nat))
      (hc : List.lookup key oldCache = none)
      (htail : ChainOk oldCache id rest heads entries finalNode) :
      ChainOk oldCache parent ((key, seg) :: rest)
        (ChildNode.head id parent seg :: heads) ((key, id) :: entries) finalNode

theorem chainOk_congr {c1 c2 : List (String × Nat)}
    {parent : Nat} {pairs : List (String × String)} {heads : List ChildNode}
    {entries : List (String × Nat)} {finalNode : Nat}
    (hch : ChainOk c1 parent pairs heads entries finalNode) :
    (∀ pr ∈ pairs, List.lookup pr.1 c2 = List.lookup pr.1 c1) →
    ChainOk c2 parent pairs heads entries finalNode := by
  induction hch with
  | nil p =>
    intro _
    exact ChainOk.nil p
  | cached p key seg node fin rest hs es hc htail ih =>
    intro hagree
    exact ChainOk.cached p key seg node fin rest hs es
      (by rw [hagree (key, seg) (List.mem_cons_self _ _)]; exact hc)
      (ih (fun pr hpr => hagree pr (List.mem_cons_of_mem _ hpr)))
  | created p key seg id fin rest hs es hc htail ih =>
    intro hagree
    exact ChainOk.created p key seg id fin rest hs es
      (by rw [hagree (key, seg) (List.mem_cons_self _ _)]; exact hc)
      (ih (fun pr hpr => hagree pr (List.mem_cons_of_mem _ hpr)))

theorem ensureLoop_spec :
    ∀ (parts : List String) (st : MapState) (parent : Nat) (accum : List String),
      (∀ p ∈ parts, p ≠ "") →
      ∃ newHeads newCache,
        (ensureLoop st parent accum parts).2.children = st.children ++ newHeads ∧
        (ensureLoop st parent accum parts).2.cache = st.cache ++ newCache ∧
        ChainOk st.cache parent (prefPairs accum parts) newHeads newCache
          (ensureLoop st parent accum parts).1 ∧
        ensureLoop (ensureLoop st parent accum parts).2 parent accum parts =
          ((ensureLoop st parent accum parts).1, (ensureLoop st parent accum parts).2) ∧
        (parts ≠ [] →
          List.lookup (String.intercalate "/" (accum ++ parts))
            (ensureLoop st parent accum parts).2.cache =
            some (ensureLoop st parent accum parts).1) := by
  intro parts
  induction parts with
  | nil =>
    intro st parent accum _
    exact ⟨[], [], by simp [ensureLoop], by simp [ensureLoop],
      ChainOk.nil parent, by simp [ensureLoop], fun hc => absurd rfl hc⟩
  | cons part rest ih =>
    intro st parent accum hps
    have hpsrest : ∀ p ∈ rest, p ≠ "" := fun p hp => hps p (List.mem_cons_of_mem _ hp)
    cases hl : List.lookup (String.intercalate "/" (accum ++ [part])) st.cache with
    | some node =>
      have heq : ensureLoop st parent accum (part :: rest) =
          ensureLoop st node (accum ++ [part]) rest := by
        simp only [ensureLoop, hl]
      obtain ⟨nh, nc, h1, h3, hchain, h5, h6⟩ := ih st node (accum ++ [part]) hpsrest
      refine ⟨nh, nc, ?_, ?_, ?_, ?_, ?_⟩
      · rw [heq]; exact h1
      · rw [heq]; exact h3
      · rw [heq]
        exact ChainOk.cached parent (String.intercalate "/" (accum ++ [part])) part
          node (ensureLoop st node (accum ++ [part]) rest).1
          (prefPairs (accum ++ [part]) rest) nh nc hl hchain
      · rw [heq]
        have hl2 : List.lookup (String.intercalate "/" (accum ++ [part]))
            (ensureLoop st node (accum ++ [part]) rest).2.cache = some node := by
          rw [h3, List.lookup_append, hl]
          rfl
        calc ensureLoop (ensureLoop st node (accum ++ [part]) rest).2 parent accum
              (part :: rest) =
            ensureLoop (ensureLoop st node (accum ++ [part]) rest).2 node
              (accum ++ [part]) rest := by
              simp only [ensureLoop, hl2]
          _ = _ := h5
      · intro _
        rw [heq]
        cases hrest : rest with
        | nil =>
          subst hrest
          rw [show ensureLoop st node (accum ++ [part]) [] = (node, st) from rfl]
          simpa using hl
        | cons q qs =>
          have h6' := h6 (by simp [hrest])
          rw [← hrest]
          rw [show accum ++ part :: rest = (accum ++ [part]) ++ rest by simp]
          exact h6'
    | none =>
      have heq : ensureLoop st parent accum (part :: rest) =
          ensureLoop
            { nextId := st.nextId + 1
              children := st.children ++ [ChildNode.head st.nextId parent part]
              cache := st.cache ++
                [(String.intercalate "/" (accum ++ [part]), st.nextId)] }
            st.nextId (accum ++ [part]) rest := by
        simp only [ensureLoop, hl]
      set st1 : MapState :=
        { nextId := st.nextId + 1
          children := st.children ++ [ChildNode.head st.nextId parent part]
          cache := st.cache ++
            [(String.intercalate "/" (accum ++ [part]), st.nextId)] } with hst1
      obtain ⟨nh, nc, h1, h3, hchain1, h5, h6⟩ := ih st1 st.nextId (accum ++ [part]) hpsrest
      have hkeylong : ∀ pr ∈ prefPairs (accum ++ [part]) rest,
          pr.1 ≠ String.intercalate "/" (accum ++ [part]) := by
        intro pr hpr hcontra
        have := prefPairs_key_gt rest (accum ++ [part]) hpsrest pr hpr
        rw [hcontra] at this
        omega
      have hagree : ∀ pr ∈ prefPairs (accum ++ [part]) rest,
          List.lookup pr.1 st.cache = List.lookup pr.1 st1.cache := by
        intro pr hpr
        rw [hst1]
        simp only
        rw [List.lookup_append]
        rw [lookup_eq_none_of_keys pr.1
          [(String.intercalate "/" (accum ++ [part]), st.nextId)]
          (by
            intro q hq
            rw [List.mem_singleton] at hq
            subst hq
            exact fun hc => hkeylong pr hpr hc.symm)]
        cases List.lookup pr.1 st.cache <;> rfl
      have hchain := chainOk_congr hchain1 hagree
      refine ⟨ChildNode.head st.nextId parent part :: nh,
        (String.intercalate "/" (accum ++ [part]), st.nextId) :: nc, ?_, ?_, ?_, ?_, ?_⟩
      · rw [heq, h1, hst1]
        simp
      · rw [heq, h3, hst1]
        simp
      · rw [heq]
        exact ChainOk.created parent (String.intercalate "/" (accum ++ [part])) part
          st.nextId (ensureLoop st1 st.nextId (accum ++ [part]) rest).1
          (prefPairs (accum ++ [part]) rest) nh nc hl hchain
      · have hlook2 : List.lookup (String.intercalate "/" (accum ++ [part]))
            (ensureLoop st1 st.nextId (accum ++ [part]) rest).2.cache =
            some st.nextId := by
          rw [h3, hst1]
          rw [List.append_assoc, List.lookup_append, hl]
          simp [List.lookup]
        rw [heq]
        calc ensureLoop (ensureLoop st1 st.nextId (accum ++ [part]) rest).2 parent accum
              (part :: rest) =
            ensureLoop (ensureLoop st1 st.nextId (accum ++ [part]) rest).2 st.nextId
              (accum ++ [part]) rest := by
              simp only [ensureLoop, hlook2]
          _ = _ := h5
      · intro _
        rw [heq]
        cases hrest : rest with
        | nil =>
          subst hrest
          rw [show ensureLoop st1 st.nextId (accum ++ [part]) [] = (st.nextId, st1) from rfl]
          rw [hst1]
          simp only
          rw [List.lookup_append, hl]
          simp [List.lookup]
        | cons q qs =>
          have h6' := h6 (by simp [hrest])
          rw [← hrest]
          rw [show accum ++ part :: rest = (accum ++ [part]) ++ rest by simp]
          exact h6'

/-- C6: resolving a non-empty (normalised) relative directory path that
is not yet fully cached walks the path prefix by prefix, starting from
the map root, and creates at most one folder node per distinct prefix:
a prefix already present in the cache contributes nothing and its cached
node is reused as the parent for the rest of the walk, while an absent
prefix causes exactly one new folder node — labelled with that prefix's
segment and attached under the current parent — to be created and
stored in the cache under the prefix key with that node's id (see
`ChainOk`); the new nodes and cache entries are appended in walk order,
and resolving the same path a second time returns the identical node
and leaves the map state completely unchanged. -/
theorem ensure_folder_nodes_spec (st : MapState) (relKey : String)
    (hne : partsOf relKey ≠ [])
    (hnorm : relKey = String.intercalate "/" (partsOf relKey))
    (hmiss : List.lookup relKey st.cache = none) :
    ∃ newHeads newCache,
      (ensure_folder_nodes st relKey).2.children = st.children ++ newHeads ∧
      (ensure_folder_nodes st relKey).2.cache = st.cache ++ newCache ∧
      ChainOk st.cache 0 (prefPairs [] (partsOf relKey)) newHeads newCache
        (ensure_folder_nodes st relKey).1 ∧
      ensure_folder_nodes (ensure_folder_nodes st relKey).2 relKey =
        ((ensure_folder_nodes st relKey).1, (ensure_folder_nodes st relKey).2) := by
  have hps := partsOf_all_ne_empty relKey
  have heq : ensure_folder_nodes st relKey = ensureLoop st 0 [] (partsOf relKey) := by
    simp only [ensure_folder_nodes, hmiss]
  obtain ⟨nh, nc, h1, h3, hchain, h5, h6⟩ := ensureLoop_spec (partsOf relKey) st 0 [] hps
  refine ⟨nh, nc, by rw [heq]; exact h1, by rw [heq]; exact h3,
    by rw [heq]; exact hchain, ?_⟩
  rw [heq]
  have hrk : List.lookup relKey (ensureLoop st 0 [] (partsOf relKey)).2.cache =
      some (ensureLoop st 0 [] (partsOf relKey)).1 := by
    have h6' := h6 hne
    rw [List.nil_append] at h6'
    rw [← hnorm] at h6'
    exact h6'
  unfold ensure_folder_nodes
  simp only [hrk]

/-- witness for `ensure_folder_nodes_spec` on the path `a/b` and the
empty cache. -/
theorem ensure_folder_nodes_spec_witness :
    ∃ newHeads newCache,
      (ensure_folder_nodes { nextId := 1, children := [], cache := [] } "a/b").2.children =
        ([] : List ChildNode) ++ newHeads ∧
      (ensure_folder_nodes { nextId := 1, children := [], cache := [] } "a/b").2.cache =
        ([] : List (String × Nat)) ++ newCache ∧
      ChainOk (MapState.mk 1 [] []).cache 0 (prefPairs [] (partsOf "a/b"))
        newHeads newCache
        (ensure_folder_nodes { nextId := 1, children := [], cache := [] } "a/b").1 ∧
      ensure_folder_nodes
          (ensure_folder_nodes { nextId := 1, children := [], cache := [] } "a/b").2 "a/b" =
        ((ensure_folder_nodes { nextId := 1, children := [], cache := [] } "a/b").1,
         (ensure_folder_nodes { nextId := 1, children := [], cache := [] } "a/b").2) :=
  ensure_folder_nodes_spec { nextId := 1, children := [], cache := [] } "a/b"
    (by decide) (by decide) rfl

/-! ### Claim C10: topic-id generation -/

theorem charOfNat_toNat {n : Nat} (h : n < 55296) : (Char.ofNat n).toNat = n := by
  have hv : Nat.isValidChar n := Or.inl h
  simp [Char.ofNat, hv, Char.ofNatAux, Char.toNat, UInt32.toNat, Nat.toUInt32]

theorem pyIsUpper_iff (c : Char) :
    pyIsUpper c = true ↔ 65 ≤ c.toNat ∧ c.toNat ≤ 90 := by
  simp [pyIsUpper]

theorem pyIsAlnum_iff (c : Char) :
    pyIsAlnum c = true ↔
      (65 ≤ c.toNat ∧ c.toNat ≤ 90) ∨ (97 ≤ c.toNat ∧ c.toNat ≤ 122) ∨
      (48 ≤ c.toNat ∧ c.toNat ≤ 57) := by
  simp [pyIsAlnum, pyIsAlpha, pyIsUpper, pyIsLower, pyIsDigit, Bool.or_eq_true,
    Bool.and_eq_true, decide_eq_true_eq, or_assoc]

theorem pyToLower_toNat (c : Char) :
    (pyToLower c).toNat = if pyIsUpper c = true then c.toNat + 32 else c.toNat := by
  unfold pyToLower
  by_cases h : pyIsUpper c = true
  · rw [if_pos h, if_pos h]
    have hb := (pyIsUpper_iff c).mp h
    exact charOfNat_toNat (by omega)
  · rw [if_neg h, if_neg h]

theorem pyToLower_eq_self_of_not_upper {c : Char} (h : ¬ pyIsUpper c = true) :
    pyToLower c = c := by
  unfold pyToLower
  rw [if_neg h]

theorem pyIsAlnum_pyToLower (c : Char) : pyIsAlnum (pyToLower c) = pyIsAlnum c := by
  by_cases h : pyIsUpper c = true
  · have ht := pyToLower_toNat c
    rw [if_pos h] at ht
    have hb := (pyIsUpper_iff c).mp h
    have h1 : pyIsAlnum (pyToLower c) = true :=
      (pyIsAlnum_iff _).mpr (Or.inr (Or.inl (by omega)))
    have h2 : pyIsAlnum c = true := (pyIsAlnum_iff _).mpr (Or.inl hb)
    rw [h1, h2]
  · rw [pyToLower_eq_self_of_not_upper h]

theorem pyIsAlnum_of_upper {c : Char} (h : pyIsUpper c = true) :
    pyIsAlnum c = true :=
  (pyIsAlnum_iff _).mpr (Or.inl ((pyIsUpper_iff c).mp h))

theorem topicIdChars_subset :
    ∀ l : List Char, ∀ c ∈ topicIdChars l, c ∈ l.map pyToLower ∨ c = '-' := by
  intro l
  induction l with
  | nil => simp [topicIdChars]
  | cons a rest ih =>
    intro c hc
    rw [topicIdChars] at hc
    by_cases h1 : pyIsAlnum (pyToLower a) = true
    · rw [if_pos h1] at hc
      rcases List.mem_cons.mp hc with rfl | hc'
      · exact Or.inl (by simp)
      · rcases ih c hc' with hm | hd
        · exact Or.inl (by simp [hm] <;> exact Or.inr hm)
        · exact Or.inr hd
    · rw [if_neg h1] at hc
      by_cases h2 : pyToLower a = ' ' ∨ pyToLower a = '-' ∨ pyToLower a = '_' ∨
          pyToLower a = '.'
      · rw [if_pos h2] at hc
        rcases List.mem_cons.mp hc with rfl | hc'
        · exact Or.inr rfl
        · rcases ih c hc' with hm | hd
          · exact Or.inl (by simp [hm] <;> exact Or.inr hm)
          · exact Or.inr hd
      · rw [if_neg h2] at hc
        rcases ih c hc with hm | hd
        · exact Or.inl (by simp [hm] <;> exact Or.inr hm)
        · exact Or.inr hd

theorem topicIdChars_ne_nil :
    ∀ l : List Char, (∃ c ∈ l, pyIsAlnum c = true) → topicIdChars l ≠ [] := by
  intro l
  induction l with
  | nil => rintro ⟨c, hc, -⟩; cases hc
  | cons a rest ih =>
    rintro ⟨c, hc, hal⟩
    rw [topicIdChars]
    by_cases h1 : pyIsAlnum (pyToLower a) = true
    · rw [if_pos h1]; simp
    · by_cases h2 : pyToLower a = ' ' ∨ pyToLower a = '-' ∨ pyToLower a = '_' ∨
          pyToLower a = '.'
      · rw [if_neg h1, if_pos h2]; simp
      · rw [if_neg h1, if_neg h2]
        rcases List.mem_cons.mp hc with rfl | hc'
        · exfalso
          rw [pyIsAlnum_pyToLower] at h1
          exact h1 hal
        · exact ih ⟨c, hc', hal⟩

theorem topicIdChars_nil_of_bad :
    ∀ l : List Char,
      (∀ c ∈ l, pyIsAlnum c = false ∧ c ∉ ([' ', '-', '_', '.'] : List Char)) →
      topicIdChars l = [] := by
  intro l
  induction l with
  | nil => intro _; rfl
  | cons a rest ih =>
    intro hbad
    obtain ⟨hal, hsp⟩ := hbad a (List.mem_cons_self a rest)
    have hup : ¬ pyIsUpper a = true := by
      intro hcontra
      rw [pyIsAlnum_of_upper hcontra] at hal
      cases hal
    have hlow : pyToLower a = a := pyToLower_eq_self_of_not_upper hup
    rw [topicIdChars]
    rw [if_neg (by rw [hlow, hal]; simp)]
    rw [if_neg (by
      rw [hlow]
      intro hcontra
      rcases hcontra with h | h | h | h <;> (subst h; simp at hsp))]
    exact ih (fun c hc => hbad c (List.mem_cons_of_mem a hc))

theorem replacePairs_ne_nil : ∀ l : List Char, l ≠ [] → replacePairs l ≠ [] := by
  intro l
  cases l with
  | nil => exact fun h => absurd rfl h
  | cons a t =>
    cases t with
    | nil => intro _; simp [replacePairs]
    | cons b r =>
      intro _
      rw [replacePairs]
      split <;> simp

theorem squeezeLoop_ne_nil :
    ∀ (fuel : Nat) (l : List Char), l ≠ [] → squeezeLoop fuel l ≠ [] := by
  intro fuel
  induction fuel with
  | zero => exact fun l h => h
  | succ fu ih =>
    intro l h
    rw [squeezeLoop]
    by_cases hdd : hasDD l = true
    · rw [if_pos hdd]
      exact ih (replacePairs l) (replacePairs_ne_nil l h)
    · rw [if_neg hdd]
      exact h

theorem stripDashes_length_le (l : List Char) : (stripDashes l).length ≤ l.length := by
  unfold stripDashes
  rw [List.length_reverse]
  calc ((l.dropWhile (fun c => c = '-')).reverse.dropWhile (fun c => c = '-')).length
      ≤ (l.dropWhile (fun c => c = '-')).reverse.length :=
        (List.dropWhile_sublist _).length_le
    _ = (l.dropWhile (fun c => c = '-')).length := List.length_reverse _
    _ ≤ l.length := (List.dropWhile_sublist _).length_le

theorem stripDashes_getLast (l : List Char) :
    (stripDashes l).getLast? ≠ some '-' := by
  unfold stripDashes
  rw [List.getLast?_reverse]
  cases hdw : (l.dropWhile (fun c => c = '-')).reverse.dropWhile (fun c => c = '-') with
  | nil => simp
  | cons d rest =>
    have hd := List.head?_dropWhile_not (fun c => c = '-')
      ((l.dropWhile (fun c => c = '-')).reverse)
    rw [hdw] at hd
    simp only [List.head?_cons, Option.map_some] at hd
    have hdne : d ≠ '-' := by
      intro hcontra
      subst hcontra
      simp at hd
    simp [hdne]

theorem rstrip_cons (c : Char) (l : List Char) (hc : c ≠ '-') :
    ((c :: l).reverse.dropWhile (fun x => x = '-')).reverse =
      c :: (l.reverse.dropWhile (fun x => x = '-')).reverse := by
  rw [List.reverse_cons]
  rw [List.dropWhile_append]
  by_cases hemp : (l.reverse.dropWhile (fun x => x = '-')).isEmpty = true
  · rw [if_pos hemp]
    have hl : l.reverse.dropWhile (fun x => x = '-') = [] := by
      rwa [List.isEmpty_iff] at hemp
    rw [hl]
    simp [List.dropWhile, decide_eq_false hc]
  · rw [if_neg hemp]
    rw [List.reverse_append]
    simp

theorem stripDashes_cons (c : Char) (l : List Char) (hc : c ≠ '-') :
    stripDashes (c :: l) = c :: (l.reverse.dropWhile (fun x => x = '-')).reverse := by
  unfold stripDashes
  rw [show (c :: l).dropWhile (fun x => x = '-') = c :: l by
    simp [List.dropWhile, decide_eq_false hc]]
  exact rstrip_cons c l hc

/-- C10 counterexample: for the filename `3.mp4` (stem `3`, which starts
with a digit) the generated identifier is `video-3`, whose character `v`
is neither a lowercased character of the stem nor a hyphen — so the
claim's clause that the identifier is built only from lowercased stem
characters and hyphens is false. -/
theorem generate_topic_id_claim_false :
    generate_topic_id "3.mp4" = some "video-3" ∧
    'v' ∈ ("video-3" : String).data ∧
    'v' ∉ (pyStem "3.mp4").data.map pyToLower ∧
    'v' ≠ '-' :=
  ⟨rfl, by decide, by decide, by decide⟩

/-- C10 (amended): for every filename whose stem contains at least one
alphanumeric character, topic-id generation succeeds (the
first-character index access is safe) and returns a non-empty identifier
of at most 50 characters that begins with a letter and does not end with
a hyphen, every character of which is a lowercased character of the
stem, a hyphen, or a letter of the prefix `video-` that the code
prepends when the candidate does not begin with a letter; for a filename
whose stem contains no alphanumeric character and none of space, hyphen,
underscore or dot, the candidate is empty and the index access fails. -/
theorem generate_topic_id_spec (filename : String) :
    ((∃ c ∈ (pyStem filename).data, pyIsAlnum c = true) →
      ∃ tid, generate_topic_id filename = some tid ∧
        tid ≠ "" ∧
        tid.length ≤ 50 ∧
        (∃ c0 rest0, tid.data = c0 :: rest0 ∧ pyIsAlpha c0 = true) ∧
        tid.data.getLast? ≠ some '-' ∧
        (∀ c ∈ tid.data, c ∈ (pyStem filename).data.map pyToLower ∨ c = '-' ∨
          c ∈ ("video").data)) ∧
    ((∀ c ∈ (pyStem filename).data, pyIsAlnum c = false ∧
        c ∉ ([' ', '-', '_', '.'] : List Char)) →
      generate_topic_id filename = none) := by
  constructor
  · rintro ⟨c, hc, hal⟩
    have ht0ne : topicIdChars (pyStem filename).data ≠ [] :=
      topicIdChars_ne_nil _ ⟨c, hc, hal⟩
    have ht1ne : squeezeHyphens (topicIdChars (pyStem filename).data) ≠ [] :=
      squeezeLoop_ne_nil _ _ ht0ne
    cases ht1 : squeezeHyphens (topicIdChars (pyStem filename).data) with
    | nil => exact absurd ht1 ht1ne
    | cons c0 rest0 =>
      have hsub : ∀ d ∈ c0 :: rest0,
          d ∈ (pyStem filename).data.map pyToLower ∨ d = '-' := by
        intro d hd
        exact topicIdChars_subset _ d (squeezeHyphens_subset _ d (ht1 ▸ hd))
      have hgen : generate_topic_id filename = some (List.asString (stripDashes
          ((if pyIsAlpha c0 = false then ("video-").data ++ (c0 :: rest0)
            else c0 :: rest0).take 50))) := by
        unfold generate_topic_id
        rw [ht1]
      by_cases halpha : pyIsAlpha c0 = true
      · rw [if_neg (by rw [halpha]; simp)] at hgen
        refine ⟨_, hgen, ?_, ?_, ?_, ?_, ?_⟩
        · intro hcontra
          have hdata := congrArg String.data hcontra
          rw [data_asString] at hdata
          have htake : (c0 :: rest0).take 50 = c0 :: rest0.take 49 := rfl
          rw [htake, stripDashes_cons c0 _ (fun hcc => by
            rw [hcc] at halpha
            exact absurd halpha (by decide))] at hdata
          cases hdata
        · show (List.asString _).length ≤ 50
          rw [List.length_asString]
          calc (stripDashes ((c0 :: rest0).take 50)).length
              ≤ ((c0 :: rest0).take 50).length := stripDashes_length_le _
            _ ≤ 50 := List.length_take_le 50 _
        · have htake : (c0 :: rest0).take 50 = c0 :: rest0.take 49 := rfl
          refine ⟨c0, ((rest0.take 49).reverse.dropWhile (fun x => x = '-')).reverse,
            ?_, halpha⟩
          rw [data_asString, htake]
          exact stripDashes_cons c0 _ (fun hcc => by
            rw [hcc] at halpha
            exact absurd halpha (by decide))
        · rw [data_asString]
          exact stripDashes_getLast _
        · intro d hd
          rw [data_asString] at hd
          have h1 := stripDashes_subset _ d hd
          have h2 := List.take_subset 50 _ h1
          rcases hsub d h2 with hm | hdash
          · exact Or.inl hm
          · exact Or.inr (Or.inl hdash)
      · rw [if_pos (by
          cases hb : pyIsAlpha c0
          · rfl
          · exact absurd hb halpha)] at hgen
        have hvne : ('v' : Char) ≠ '-' := by decide
        have htake : (("video-").data ++ (c0 :: rest0)).take 50 =
            'v' :: (("ideo-").data ++ (c0 :: rest0)).take 49 := rfl
        refine ⟨_, hgen, ?_, ?_, ?_, ?_, ?_⟩
        · intro hcontra
          have hdata := congrArg String.data hcontra
          rw [data_asString, htake, stripDashes_cons 'v' _ hvne] at hdata
          cases hdata
        · show (List.asString _).length ≤ 50
          rw [List.length_asString]
          calc (stripDashes ((("video-").data ++ (c0 :: rest0)).take 50)).length
              ≤ ((("video-").data ++ (c0 :: rest0)).take 50).length :=
                stripDashes_length_le _
            _ ≤ 50 := List.length_take_le 50 _
        · refine ⟨'v', ((("ideo-").data ++ (c0 :: rest0)).take 49).reverse.dropWhile
            (fun x => x = '-') |>.reverse, ?_, by decide⟩
          rw [data_asString, htake]
          exact stripDashes_cons 'v' _ hvne
        · rw [data_asString]
          exact stripDashes_getLast _
        · intro d hd
          rw [data_asString] at hd
          have h1 := stripDashes_subset _ d hd
          have h2 := List.take_subset 50 _ h1
          rcases List.mem_append.mp h2 with hv | ht
          · have : d ∈ ("video").data ∨ d = '-' := by
              have hfin : ∀ e ∈ ("video-").data, e ∈ ("video").data ∨ e = '-' := by
                decide
              exact hfin d hv
            rcases this with h | h
            · exact Or.inr (Or.inr h)
            · exact Or.inr (Or.inl h)
          · rcases hsub d ht with hm | hdash
            · exact Or.inl hm
            · exact Or.inr (Or.inl hdash)
  · intro hbad
    unfold generate_topic_id
    rw [topicIdChars_nil_of_bad _ hbad]
    rfl

/-- witness for `generate_topic_id_spec`: a stem with an alphanumeric
character, and a stem with neither alphanumeric nor separator
characters. -/
theorem generate_topic_id_spec_witness :
    (∃ tid, generate_topic_id "My Video.mp4" = some tid ∧
      tid ≠ "" ∧
      tid.length ≤ 50 ∧
      (∃ c0 rest0, tid.data = c0 :: rest0 ∧ pyIsAlpha c0 = true) ∧
      tid.data.getLast? ≠ some '-' ∧
      (∀ c ∈ tid.data, c ∈ (pyStem "My Video.mp4").data.map pyToLower ∨ c = '-' ∨
        c ∈ ("video").data)) ∧
    generate_topic_id "!!!.mp4" = none :=
  ⟨(generate_topic_id_spec "My Video.mp4").1 (by decide),
   (generate_topic_id_spec "!!!.mp4").2 (by decide)⟩
